import Mathlib

/-!
# rmtweet: a shallow embedding of the bulk-deletion agent

The Go sources `twitter/twitter.go`, `twitter/types.go`, `criteria.go` and
`destroy.go` are embedded as Lean functions.  Go strings are `String`s whose
bytes are scanned as a `List Char` (every byte the code tests is ASCII, and a
multi-byte character only ever falls in the `default` branch of a switch).
`int64` values are `Int`s, wrapped explicitly where the code does arithmetic.
-/

set_option autoImplicit false

deriving instance DecidableEq for Except

namespace Rmtweet

/-! ## Resource templates (`twitter/twitter.go`, `Resource`, `Render`) -/

/-- The `url.URL` fields the program reads or writes.  `RawQuery` is kept as
the ordered `key=value` pairs of the query string. -/
structure URL where
  Scheme : String
  Host : String
  Path : String
  RawQuery : List (String × String)
  deriving DecidableEq, Repr

/-- The struct `Resource`: an HTTP method and a URL. -/
structure Resource where
  method : String
  url : URL
  deriving DecidableEq, Repr

/-- The error built by `fmt.Errorf("no parameter %q provided", name)`. -/
inductive RenderError where
  | noParameter (name : String)
  deriving DecidableEq, Repr

/-- The Go slice expression `s[lo:hi]`. -/
def slice (s : List Char) (lo hi : Nat) : List Char :=
  (s.take hi).drop lo

/-- The local variables of `Render` that survive the loop, with the state
`σ` that the `lookup` closure captures. -/
structure RenderVars (σ : Type) where
  withinName : Int
  offset : Nat
  b : List Char
  env : σ

/-- The `for i := 0; i < len(s); i++` loop of `Render`.  The third argument
is `s[i:]`, the fourth is `i`.  `lookup` is a closure: it receives and
returns the state it captures. -/
def renderLoop {σ : Type} (s : List Char) (lookup : String → σ → String × σ) :
    List Char → Nat → RenderVars σ → Except RenderError (RenderVars σ)
  | [], _, vars => .ok vars
  | c :: rest, i, vars =>
    if 'a' ≤ c ∧ c ≤ 'z' then
      renderLoop s lookup rest (i + 1) vars
    else if c = ':' then
      renderLoop s lookup rest (i + 1)
        { vars with withinName := (i : Int) + 1, b := vars.b ++ slice s vars.offset i }
    else if vars.withinName = -1 then
      renderLoop s lookup rest (i + 1) vars
    else
      let name := String.mk (slice s vars.withinName.toNat i)
      let value := (lookup name vars.env).1
      let env := (lookup name vars.env).2
      if value = "" then
        .error (.noParameter name)
      else
        renderLoop s lookup rest (i + 1)
          { withinName := -1, offset := i, b := vars.b ++ value.data, env := env }

/-- The method `Resource.Render`. -/
def Resource.Render {σ : Type} (r : Resource) (lookup : String → σ → String × σ) (env : σ) :
    Except RenderError (Resource × σ) :=
  let s := r.url.Path.data
  match renderLoop s lookup s 0 { withinName := -1, offset := 0, b := [], env := env } with
  | .error e => .error e
  | .ok vars =>
    if vars.b.length > 0 then
      .ok ({ r with url := { r.url with Path := String.mk (vars.b ++ s.drop vars.offset) } },
        vars.env)
    else
      .ok (r, vars.env)

/-- A `lookup` without captured state, as in `TestResourceRender`. -/
def pureLookup (f : String → String) : String → Unit → String × Unit :=
  fun name u => (f name, u)

/-- The lookup of the test table: `test.params[name]`. -/
def paramsLookup (params : List (String × String)) : String → String :=
  fun name => (params.lookup name).getD ""

/-! ## Query options (`url.Values`, `QueryOption`, `WithNumber`, `WithOptions`) -/

/-- The map `url.Values` (`map[string][]string`) as an association list with
one entry per key. -/
structure Values where
  entries : List (String × List String)
  deriving DecidableEq, Repr

/-- The expression `make(url.Values, n)`. -/
def Values.empty : Values := ⟨[]⟩

/-- The map index `v[key]` with its presence flag. -/
def Values.find (v : Values) (key : String) : Option (List String) :=
  v.entries.lookup key

/-- The method `Values.Get`: the first value of the key, or the empty string. -/
def Values.Get (v : Values) (key : String) : String :=
  match v.find key with
  | some (x :: _) => x
  | _ => ""

/-- The method `Values.Del`. -/
def Values.Del (v : Values) (key : String) : Values :=
  ⟨v.entries.filter (fun e => e.1 != key)⟩

/-- The method `Values.Set`: the key now holds exactly one value. -/
def Values.Set (v : Values) (key value : String) : Values :=
  ⟨(v.Del key).entries ++ [(key, [value])]⟩

/-- The method `Values.Add`: the value is appended to those of the key. -/
def Values.Add (v : Values) (key value : String) : Values :=
  ⟨(v.Del key).entries ++ [(key, (v.find key).getD [] ++ [value])]⟩

/-- The order of Go strings (`<` on strings), on their characters. -/
def ltString : List Char → List Char → Bool
  | [], [] => false
  | [], _ :: _ => true
  | _ :: _, [] => false
  | a :: as, b :: bs =>
    if a.toNat < b.toNat then true
    else if b.toNat < a.toNat then false
    else ltString as bs

/-- Insertion of one entry into a list of entries ordered by key. -/
def insertByKey (e : String × List String) :
    List (String × List String) → List (String × List String)
  | [] => [e]
  | x :: xs => if ltString e.1.data x.1.data then e :: x :: xs else x :: insertByKey e xs

/-- The entries ordered by key, as `Encode` visits them (`sort.Strings`). -/
def sortByKey : List (String × List String) → List (String × List String)
  | [] => []
  | e :: es => insertByKey e (sortByKey es)

/-- The method `Values.Encode`: keys in sorted order, each key with its
values in order.  The percent-escaping of the pairs is not modelled. -/
def Values.Encode (v : Values) : List (String × String) :=
  (sortByKey v.entries).flatMap (fun e => e.2.map (fun x => (e.1, x)))

/-- The method `URL.Query`: the pairs of `RawQuery` parsed into a map. -/
def URL.Query (u : URL) : Values :=
  u.RawQuery.foldl (fun v kv => v.Add kv.1 kv.2) Values.empty

/-- The type `QueryOption`, a `func(url.Values)` that mutates the map. -/
abbrev QueryOption := Values → Values

/-- The call `strconv.FormatInt(id, 10)`. -/
def FormatInt (id : Int) : String :=
  if id < 0 then "-" ++ Nat.repr id.natAbs else Nat.repr id.toNat

/-- The function `WithNumber`. -/
def WithNumber (name : String) (id : Int) : QueryOption :=
  fun q => q.Set name (FormatInt id)

/-- The function `WithOptions`. -/
def WithOptions (opts : List QueryOption) : QueryOption :=
  fun q => opts.foldl (fun q opt => opt q) q

/-! ## Building a request (`request`) -/

/-- The ways the program panics. -/
inductive Panic where
  | render (e : RenderError)
  | duplicate (name : String)
  | parseTime (s : String)
  | index
  deriving DecidableEq, Repr

/-- The `*http.Request` handed to the transport: its method and URL.
`http.NewRequest` parses the string of the URL back; the model keeps the URL
as it is. -/
structure Request where
  Method : String
  URL : URL
  deriving DecidableEq, Repr

/-- The closure passed to `Render` by `request`: read the option, delete it. -/
def consume : String → Values → String × Values :=
  fun name v => (v.Get name, v.Del name)

/-- The loop `for name, values := range r.url.Query()` of `request`. -/
def mergeStatic : List (String × List String) → Values → Except Panic Values
  | [], v => .ok v
  | (name, values) :: rest, v =>
    if (v.find name).isSome then
      .error (.duplicate name)
    else
      mergeStatic rest (values.foldl (fun v val => v.Add name val) v)

/-- The function `request`. -/
def request (r : Resource) (opts : List QueryOption) : Except Panic Request :=
  if opts.length > 0 then
    let v := opts.foldl (fun v opt => opt v) Values.empty
    match r.Render consume v with
    | .error e => .error (.render e)
    | .ok (r, v) =>
      match mergeStatic r.url.Query.entries v with
      | .error p => .error p
      | .ok v => .ok { Method := r.method, URL := { r.url with RawQuery := v.Encode } }
  else
    .ok { Method := r.method, URL := r.url }

/-- The catalog entry `DestroyTweet`. -/
def DestroyTweet : Resource :=
  ⟨"POST", ⟨"https", "api.twitter.com", "/1.1/statuses/destroy/:id.json", []⟩⟩

/-- The catalog entry `DestroyFavorite`. -/
def DestroyFavorite : Resource :=
  ⟨"POST", ⟨"https", "api.twitter.com", "/1.1/favorites/destroy.json", []⟩⟩

/-- The catalog entry `UserTimeline`. -/
def UserTimeline : Resource :=
  ⟨"GET", ⟨"https", "api.twitter.com", "/1.1/statuses/user_timeline.json", []⟩⟩

/-- The catalog entry `Favorites`. -/
def Favorites : Resource :=
  ⟨"GET", ⟨"https", "api.twitter.com", "/1.1/favorites/list.json", []⟩⟩

/-! ## Data types (`twitter/types.go`) and the standard library values -/

/-- A `time.Time` without monotonic reading: the seconds since January 1 of
year 1 UTC, the nanoseconds within the second, and the identity of its
location pointer (`0` is the nil pointer). -/
structure Time where
  sec : Int
  nsec : Nat
  loc : Nat
  deriving DecidableEq, Repr

/-- The zero value `time.Time{}`. -/
def Time.zero : Time := ⟨0, 0, 0⟩

/-- The method `Time.IsZero`. -/
def Time.IsZero (t : Time) : Bool := decide (t.sec = 0) && decide (t.nsec = 0)

/-- The method `Time.Before`. -/
def Time.Before (t u : Time) : Bool :=
  decide (t.sec < u.sec) || (decide (t.sec = u.sec) && decide (t.nsec < u.nsec))

/-- The method `Time.After`. -/
def Time.After (t u : Time) : Bool :=
  decide (t.sec > u.sec) || (decide (t.sec = u.sec) && decide (t.nsec > u.nsec))

/-- Arithmetic of `int64`: the value wrapped into the 64-bit range. -/
def wrapInt64 (x : Int) : Int := (x + 2 ^ 63) % 2 ^ 64 - 2 ^ 63

/-- The call `time.Unix(sec, 0)`: the seconds are moved to the internal epoch
in `int64`; location `1` stands for `time.Local`. -/
def Time.Unix (sec : Int) : Time := ⟨wrapInt64 (sec + 62135596800), 0, 1⟩

/-- The struct `User`. -/
structure User where
  ID : Int
  IDStr : String
  Name : String
  ScreenName : String
  Location : String
  Description : String
  URL : String
  deriving DecidableEq, Repr

/-- The struct `Tweet`. -/
structure Tweet where
  CreatedAt : String
  ID : Int
  IDStr : String
  Text : String
  Truncated : Bool
  Source : String
  User : User
  Lang : String
  Retweeted : Bool
  InReplyToStatusID : Int
  InReplyToUserID : Int
  InReplyToScreenName : String
  deriving DecidableEq, Repr

/-- The struct `ErrorInfo`. -/
structure ErrorInfo where
  Code : Int
  Message : String
  deriving DecidableEq, Repr

/-- The struct `RateLimit`. -/
structure RateLimit where
  Limit : Int
  Remaining : Int
  Reset : Time
  deriving DecidableEq, Repr

/-- The zero value `RateLimit{}`. -/
def RateLimit.zero : RateLimit := ⟨0, 0, Time.zero⟩

/-- The struct `Error`, the structured API error. -/
structure Error where
  StatusCode : Int
  Errors : List ErrorInfo
  RateLimit : RateLimit
  deriving DecidableEq, Repr

/-- The values of the interface `error` that the program handles; `nil` is
`none` of `Option GoError`. -/
inductive GoError where
  | EOF
  | api (e : Error)
  | ctx
  | transport (msg : String)
  | read (msg : String)
  | decode (msg : String)
  | atoi (msg : String)
  deriving DecidableEq, Repr

/-- The functions of the standard library and of the generated decoders that
the program calls and whose code is not part of it. -/
structure Lib where
  /-- The call `time.Parse(TimeLayout, s)`. -/
  parseTime : String → Option Time
  /-- The call `strconv.Atoi(s)`: the value it returns and its error. -/
  atoi : String → Int × Option String
  /-- The call `easyjson.Unmarshal(p, &tweets)` when it succeeds; a failing call
  is taken to leave the slice as it was. -/
  unmarshalTweets : String → Option (List Tweet)
  /-- The call `easyjson.Unmarshal(body, &errResp)` when it succeeds. -/
  unmarshalErrorResponse : String → Option (List ErrorInfo)

/-- Modelled from the spec: the generated decoder of `ErrorResponse` is
missing; it is best-effort, and a body that does not decode yields an empty
error list. -/
def decodeErrors (lib : Lib) (body : String) : List ErrorInfo :=
  (lib.unmarshalErrorResponse body).getD []

/-! ## The API client (`Client.Do`, `parseRateLimit`, `IsRateLimited`) -/

/-- The `http.Header` of a response, keyed by canonical header name. -/
abbrev Header := List (String × String)

/-- The method `Header.Get`. -/
def headerGet (h : Header) (key : String) : String :=
  (h.lookup key).getD ""

/-- The function `parseRateLimit`, with its named result `r`. -/
def parseRateLimit (lib : Lib) (h : Header) : RateLimit × Option GoError :=
  let r := RateLimit.zero
  let s1 := headerGet h "X-Rate-Limit-Limit"
  let r1 : RateLimit := if s1 ≠ "" then { r with Limit := (lib.atoi s1).1 } else r
  if s1 ≠ "" ∧ (lib.atoi s1).2.isSome then
    (r1, (lib.atoi s1).2.map GoError.atoi)
  else
    let s2 := headerGet h "X-Rate-Limit-Remaining"
    let r2 : RateLimit := if s2 ≠ "" then { r1 with Remaining := (lib.atoi s2).1 } else r1
    if s2 ≠ "" ∧ (lib.atoi s2).2.isSome then
      (r2, (lib.atoi s2).2.map GoError.atoi)
    else
      let s3 := headerGet h "X-Rate-Limit-Reset"
      if s3 ≠ "" then
        if (lib.atoi s3).2.isSome then
          (r2, (lib.atoi s3).2.map GoError.atoi)
        else
          ({ r2 with Reset := Time.Unix (lib.atoi s3).1 }, none)
      else
        (r2, none)

/-- What `http.Client.Do` hands back when it returns no error: status,
headers, and the outcome of reading the body. -/
structure Response where
  StatusCode : Int
  Header : Header
  Body : Except String String
  deriving DecidableEq, Repr

/-- The result of `c.http.Do(req)`: a transport error or a response. -/
abbrev Reply := Except String Response

/-- The constant `http.StatusOK`. -/
def StatusOK : Int := 200

/-- The constant `http.StatusTooManyRequests`. -/
def StatusTooManyRequests : Int := 429

/-- The part of `Client.Do` after the transport has answered. -/
def Client.handle (lib : Lib) (reply : Reply) : Except GoError String :=
  match reply with
  | .error msg => .error (.transport msg)
  | .ok resp =>
    match resp.Body with
    | .error msg => .error (.read msg)
    | .ok body =>
      if resp.StatusCode ≠ StatusOK then
        .error (.api
          { StatusCode := resp.StatusCode
            Errors := decodeErrors lib body
            RateLimit := (parseRateLimit lib resp.Header).1 })
      else
        .ok body

/-- The function `IsRateLimited`. -/
def IsRateLimited (err : Option GoError) : RateLimit × Bool :=
  match err with
  | some (.api terr) =>
    if terr.StatusCode = StatusTooManyRequests then (terr.RateLimit, true)
    else (RateLimit.zero, false)
  | _ => (RateLimit.zero, false)

/-- The error of a `([]byte, error)` result. -/
def errOf {α : Type} (r : Except GoError α) : Option GoError :=
  match r with
  | .error e => some e
  | .ok _ => none

/-! ## The environment of a run -/

/-- What the program does that the outside can observe, in order.  A `list`
event is a request of the iterator, with the `max_id` option that `fetch`
added to it, if any; a `delete` event is a delete request, with the id given
to `WithNumber("id", ...)`. -/
inductive Event where
  | limiterWait (done : Bool)
  | list (maxID : Option Int) (req : Request)
  | page (tweets : List Tweet)
  | relax (limit : RateLimit) (done : Bool)
  | prompt (t : Tweet) (answer : Bool)
  | delete (id : Int) (req : Request)
  | destroyed (t : Tweet)
  deriving DecidableEq, Repr

/-- The outside of one run: the successive answers of the transport to the
requests of the iterator (`pages`) and to the delete requests (`dels`), and
for each wait on the context whether it completes (`true`) or the context is
cancelled first (`false`). -/
structure Env where
  pages : Nat → Reply
  dels : Nat → Reply
  waits : Nat → Bool

/-- The mutable state of one run: how far the environment has been consumed,
the events so far, the fields `err` and `offset` of the `Iterator`, and the
variables `tweets` and `pos` captured by the closure of `ForEachTweet`. -/
structure State where
  npages : Nat
  ndels : Nat
  nwaits : Nat
  trace : List Event
  err : Option GoError
  offset : Int
  tweets : List Tweet
  pos : Nat
  deriving DecidableEq, Repr

/-- The state when `Destroy` (or `ForEachTweet`) starts. -/
def State.init : State :=
  { npages := 0, ndels := 0, nwaits := 0, trace := [], err := none, offset := 0,
    tweets := [], pos := 0 }

/-- The result of running a piece of the program: it returns, it panics, or
the fuel of the model ran out (the loops of the program are unbounded); each
with the state reached. -/
inductive Outcome (α : Type) where
  | ret (a : α) (st : State)
  | panic (p : Panic) (st : State)
  | timeout (st : State)
  deriving DecidableEq, Repr

/-- The state in which a piece of the program stopped. -/
def Outcome.state {α : Type} : Outcome α → State
  | .ret _ st => st
  | .panic _ st => st
  | .timeout st => st

/-- The transport as the iterator meets it: the request is recorded and
answered by the next of `pages`. -/
def Env.listTransport (env : Env) (maxID : Option Int) (req : Request) (st : State) :
    Reply × State :=
  (env.pages st.npages,
    { st with npages := st.npages + 1, trace := st.trace ++ [Event.list maxID req] })

/-- The transport as the delete call meets it: the request is recorded and
answered by the next of `dels`. -/
def Env.deleteTransport (env : Env) (id : Int) (req : Request) (st : State) :
    Reply × State :=
  (env.dels st.ndels,
    { st with ndels := st.ndels + 1, trace := st.trace ++ [Event.delete id req] })

/-- A wait on the context: `true` when it completes, `false` when the context
is cancelled first. -/
def Env.wait (env : Env) (st : State) : Bool × State :=
  (env.waits st.nwaits, { st with nwaits := st.nwaits + 1 })

/-- The method `Client.Do` over the transport `http` (the call
`c.http.Do(req.WithContext(ctx))`): build the request, which may panic,
execute it, and interpret the answer. -/
def Client.Do (lib : Lib) (http : Request → State → Reply × State) (res : Resource)
    (opts : List QueryOption) (st : State) : Outcome (Except GoError String) :=
  match request res opts with
  | .error p => .panic p st
  | .ok req => .ret (Client.handle lib (http req st).1) (http req st).2

/-- The function `Relax`: block until the reset time or the cancellation of
the context, whichever the environment lets happen first. -/
def Relax (env : Env) (limit : RateLimit) (st : State) : Option GoError × State :=
  let done := (env.wait st).1
  (if done then none else some GoError.ctx,
    { (env.wait st).2 with trace := st.trace ++ [Event.relax limit done] })

/-! ## The paginating iterator (`Iterator`, `ForEachTweet`) -/

/-- The configuration fields of `Iterator`. -/
structure Iterator where
  Resource : Resource
  Options : List QueryOption

/-- The closure `OnData` that `ForEachTweet` installs. -/
def OnData (lib : Lib) (p : String) (st : State) : Except GoError Int × State :=
  match lib.unmarshalTweets p with
  | none => (.error (.decode p), st)
  | some tweets =>
    let st := { st with tweets := tweets, trace := st.trace ++ [Event.page tweets] }
    match tweets.getLast? with
    | none => (.error .EOF, st)
    | some last => (.ok last.ID, st)

/-- The local `opts` of `fetch`: the `max_id` option once `offset` is positive. -/
def cursorOptions (offset : Int) : List QueryOption :=
  if offset > 0 then [WithNumber "max_id" offset] else []

/-- The `max_id` that `cursorOptions` carries, if any. -/
def cursorOf (offset : Int) : Option Int :=
  if offset > 0 then some offset else none

/-- The method `Iterator.fetch`; each turn of its `for` loop takes one unit
of fuel. -/
def Iterator.fetch (lib : Lib) (env : Env) (it : Iterator) :
    Nat → State → Outcome (Except GoError Int)
  | 0, st => .timeout st
  | fuel + 1, st =>
    let done := (env.wait st).1
    let st := { (env.wait st).2 with trace := st.trace ++ [Event.limiterWait done] }
    if done = false then
      .ret (.error .ctx) st
    else
      match Client.Do lib (env.listTransport (cursorOf st.offset)) it.Resource
          [WithOptions it.Options, WithOptions (cursorOptions st.offset)] st with
      | .timeout st => .timeout st
      | .panic p st => .panic p st
      | .ret r st =>
        if (IsRateLimited (errOf r)).2 then
          match Relax env (IsRateLimited (errOf r)).1 st with
          | (some err, st) => .ret (.error err) st
          | (none, st) => Iterator.fetch lib env it fuel st
        else
          match r with
          | .error err => .ret (.error err) st
          | .ok bts => .ret (OnData lib bts st).1 (OnData lib bts st).2

/-- The method `Iterator.Next`. -/
def Iterator.Next (lib : Lib) (env : Env) (it : Iterator) (fuel : Nat) (st : State) :
    Outcome Bool :=
  if st.err.isSome then
    .ret false st
  else
    match Iterator.fetch lib env it fuel st with
    | .timeout st => .timeout st
    | .panic p st => .panic p st
    | .ret (.error err) st => .ret false { st with err := some err }
    | .ret (.ok id) st => .ret true { st with offset := wrapInt64 (id - 1) }

/-- The zero value `Tweet{}`. -/
def Tweet.zero : Tweet :=
  { CreatedAt := "", ID := 0, IDStr := "", Text := "", Truncated := false, Source := "",
    User := ⟨0, "", "", "", "", "", ""⟩, Lang := "", Retweeted := false,
    InReplyToStatusID := 0, InReplyToUserID := 0, InReplyToScreenName := "" }

/-- The last lines of the closure returned by `ForEachTweet`:
`ret := tweets[pos]; pos++; return ret, nil`. -/
def yield (st : State) : Outcome (Tweet × Option GoError) :=
  match st.tweets.get? st.pos with
  | none => .panic .index st
  | some t => .ret (t, none) { st with pos := st.pos + 1 }

/-- The closure returned by `Client.ForEachTweet`, a `TweetIterator`. -/
def ForEachTweet (lib : Lib) (env : Env) (it : Iterator) (fuel : Nat) (st : State) :
    Outcome (Tweet × Option GoError) :=
  if st.pos ≥ st.tweets.length then
    match Iterator.Next lib env it fuel st with
    | .timeout st => .timeout st
    | .panic p st => .panic p st
    | .ret false st => .ret (Tweet.zero, st.err) st
    | .ret true st => yield { st with pos := 0 }
  else
    yield st

/-- Successive calls of a `TweetIterator`: the results of `n` calls. -/
def pull (lib : Lib) (env : Env) (it : Iterator) (fuel : Nat) :
    Nat → State → Outcome (List (Tweet × Option GoError))
  | 0, st => .ret [] st
  | n + 1, st =>
    match ForEachTweet lib env it fuel st with
    | .timeout st => .timeout st
    | .panic p st => .panic p st
    | .ret a st =>
      match pull lib env it fuel n st with
      | .timeout st => .timeout st
      | .panic p st => .panic p st
      | .ret as st => .ret (a :: as) st

/-! ## The criteria matcher (`criteria.go`) -/

/-- The struct `Criteria`. -/
structure Criteria where
  MaxDate : Time
  MinDate : Time
  RepliesOnly : Bool
  RepliesTo : String
  deriving DecidableEq, Repr

/-- The package variable `zeroCriteria`. -/
def zeroCriteria : Criteria := ⟨Time.zero, Time.zero, false, ""⟩

/-- The method `Criteria.Empty`: struct equality with `zeroCriteria`. -/
def Criteria.Empty (c : Criteria) : Bool := decide (c = zeroCriteria)

/-- The function `MustParseTime`. -/
def MustParseTime (lib : Lib) (s : String) : Except Panic Time :=
  match lib.parseTime s with
  | none => .error (.parseTime s)
  | some t => .ok t

/-- The method `Criteria.Match`. -/
def Criteria.Match (lib : Lib) (c : Criteria) (t : Tweet) : Except Panic Bool :=
  if c.Empty then
    .ok true
  else if c.RepliesTo ≠ "" ∧ t.InReplyToScreenName ≠ c.RepliesTo then
    .ok false
  else if c.RepliesOnly = true ∧ t.InReplyToStatusID = 0 then
    .ok false
  else
    match MustParseTime lib t.CreatedAt with
    | .error p => .error p
    | .ok date =>
      if !c.MinDate.IsZero && date.Before c.MinDate then
        .ok false
      else if !c.MaxDate.IsZero && date.After c.MaxDate then
        .ok false
      else
        .ok true

/-! ## The destroy loop (`destroy.go`) -/

/-- The struct `Destroyer`.  `Prompt` is `none` for a nil func; `Destroyed`
tells whether the callback is set, and each call of it is an event. -/
structure Destroyer where
  Get : Resource
  Del : Resource
  Criteria : Criteria
  Prompt : Option (Tweet → Bool)
  Destroyed : Bool

/-- The statement `if ask := d.Prompt; ask != nil && !ask(t)`: whether the
item is to be skipped, each call of the predicate being an event. -/
def ask (d : Destroyer) (t : Tweet) (st : State) : Bool × State :=
  match d.Prompt with
  | some prompt => (!prompt t, { st with trace := st.trace ++ [Event.prompt t (prompt t)] })
  | none => (false, st)

/-- The statement that calls `d.Destroyed` with the item when the callback
is set. -/
def notify (d : Destroyer) (t : Tweet) (st : State) : State :=
  if d.Destroyed then { st with trace := st.trace ++ [Event.destroyed t] } else st

/-- The inner `for` of `Destroy` around the delete call.  Every path through
its body ends in `break` or `return`, so the body runs once: the result is
the error to return, or `none` after the `break`. -/
def Destroyer.delete (lib : Lib) (env : Env) (d : Destroyer) (t : Tweet) (st : State) :
    Outcome (Option GoError) :=
  match Client.Do lib (env.deleteTransport t.ID) d.Del [WithNumber "id" t.ID] st with
  | .timeout st => .timeout st
  | .panic p st => .panic p st
  | .ret r st =>
    if (IsRateLimited (errOf r)).2 then
      .ret (Relax env (IsRateLimited (errOf r)).1 st).1 (Relax env (IsRateLimited (errOf r)).1 st).2
    else
      .ret (errOf r) st

/-- The outer `for` of `Destroy`, over the iterator `next`; each turn takes
one unit of fuel. -/
def Destroyer.loop (lib : Lib) (env : Env) (d : Destroyer) :
    Nat → State → Outcome (Option GoError)
  | 0, st => .timeout st
  | fuel + 1, st =>
    match ForEachTweet lib env ⟨d.Get, [WithNumber "count" 200]⟩ fuel st with
    | .timeout st => .timeout st
    | .panic p st => .panic p st
    | .ret (_, some err) st => .ret (if err = GoError.EOF then none else some err) st
    | .ret (t, none) st =>
      match d.Criteria.Match lib t with
      | .error p => .panic p st
      | .ok false => Destroyer.loop lib env d fuel st
      | .ok true =>
        if (ask d t st).1 then
          Destroyer.loop lib env d fuel (ask d t st).2
        else
          match Destroyer.delete lib env d t (ask d t st).2 with
          | .timeout st => .timeout st
          | .panic p st => .panic p st
          | .ret (some err) st => .ret (some err) st
          | .ret none st => Destroyer.loop lib env d fuel (notify d t st)

/-- The method `Destroyer.Destroy`. -/
def Destroyer.Destroy (lib : Lib) (env : Env) (d : Destroyer) (fuel : Nat) :
    Outcome (Option GoError) :=
  Destroyer.loop lib env d fuel State.init

/-! ## Definitions used to state the properties -/

/-- One placeholder of a path template with what follows it: the name, the
character that ends the name, and the literal text up to the next colon. -/
structure Segment where
  name : List Char
  stop : Char
  text : List Char
  deriving DecidableEq, Repr

/-- A lowercase letter, as the first case of the switch in `Render` tests it. -/
def isLower (c : Char) : Prop := 'a' ≤ c ∧ c ≤ 'z'

/-- The name is a run of lowercase letters, the character ending it is
neither a lowercase letter nor a colon, and the text has no colon. -/
def Segment.wellFormed (sg : Segment) : Prop :=
  (∀ c ∈ sg.name, isLower c) ∧ ¬ isLower sg.stop ∧ sg.stop ≠ ':' ∧ ':' ∉ sg.text

/-- The text of the segments as they stand in the template. -/
def segmentsText (segs : List Segment) : List Char :=
  segs.flatMap (fun sg => ':' :: sg.name ++ sg.stop :: sg.text)

/-- The text of the segments with each placeholder replaced by its value. -/
def segmentsValue (f : String → String) (segs : List Segment) : List Char :=
  segs.flatMap (fun sg => (f (String.mk sg.name)).data ++ sg.stop :: sg.text)

/-- A path template: literal text, then the segments. -/
def templatePath (lit : List Char) (segs : List Segment) : List Char :=
  lit ++ segmentsText segs

/-- The template with each placeholder replaced by its value. -/
def renderedPath (f : String → String) (lit : List Char) (segs : List Segment) : List Char :=
  lit ++ segmentsValue f segs

/-- The reference definition of the matcher for a non-empty criteria and a
tweet dated `date`: the four filters, all of which must hold. -/
def Criteria.matchReference (c : Criteria) (t : Tweet) (date : Time) : Bool :=
  (decide (c.RepliesTo = "") || decide (t.InReplyToScreenName = c.RepliesTo))
    && (!c.RepliesOnly || decide (t.InReplyToStatusID ≠ 0))
    && (c.MinDate.IsZero || !date.Before c.MinDate)
    && (c.MaxDate.IsZero || !date.After c.MaxDate)

/-- A sample tweet with the given id: it is a reply unless 3 divides the id,
and its timestamp is the text `epoch` for an id below 20 and empty otherwise. -/
def Tweet.withID (id : Int) : Tweet :=
  { Tweet.zero with
    ID := id
    CreatedAt := if id < 20 then "epoch" else ""
    InReplyToStatusID := id % 3 }

/-- The value of a run of decimal digits. -/
def digitsValue : List Char → Option Nat
  | [] => some 0
  | c :: cs =>
    if '0' ≤ c ∧ c ≤ '9' then
      (digitsValue cs).map (fun v => (c.toNat - '0'.toNat) * 10 ^ cs.length + v)
    else none

/-- A sample library: no timestamp parses except `epoch`, numbers are runs of
decimal digits, a page body is a run of the characters `a` to `z`, one sample
tweet each (`a` is id 1), and an error body never decodes. -/
def Lib.sample : Lib :=
  { parseTime := fun s => if s = "epoch" then some (Time.Unix 0) else none
    atoi := fun s =>
      match s.data, digitsValue s.data with
      | _ :: _, some v => ((v : Int), none)
      | _, _ => (0, some "invalid number")
    unmarshalTweets := fun s =>
      if s.data.all (fun c => decide ('a' ≤ c ∧ c ≤ 'z')) then
        some (s.data.map (fun c => Tweet.withID ((c.toNat : Int) - 96)))
      else none
    unmarshalErrorResponse := fun _ => none }

/-- A successful answer of the transport with the given body. -/
def Reply.success (body : String) : Reply := .ok ⟨200, [], .ok body⟩

/-- A rate-limit rejection of the transport. -/
def Reply.limited : Reply := .ok ⟨429, [("X-Rate-Limit-Reset", "15")], .ok ""⟩

/-- The ids of the delete requests of a trace, in order. -/
def deleteCalls (trace : List Event) : List Int :=
  trace.filterMap (fun e => match e with
    | .delete id _ => some id
    | _ => none)

/-- The items given to the `Destroyed` callback in a trace, in order. -/
def destroyedCalls (trace : List Event) : List Tweet :=
  trace.filterMap (fun e => match e with
    | .destroyed t => some t
    | _ => none)

/-- The items given to the confirmation predicate in a trace, in order. -/
def promptCalls (trace : List Event) : List Tweet :=
  trace.filterMap (fun e => match e with
    | .prompt t _ => some t
    | _ => none)

/-- An environment with one page holding the tweet of id 7, then the empty
page; every delete request is rejected with status 429; no wait is cancelled. -/
def Env.limitedDelete : Env :=
  { pages := fun i => if i = 0 then Reply.success "g" else Reply.success ""
    dels := fun _ => Reply.limited
    waits := fun _ => true }

/-- A destroyer of tweets with the empty criteria, no confirmation predicate
and a `Destroyed` callback. -/
def Destroyer.sample : Destroyer :=
  { Get := UserTimeline, Del := DestroyTweet, Criteria := zeroCriteria, Prompt := none,
    Destroyed := true }

/-- The value a piece of the program returned, if it returned. -/
def Outcome.value {α : Type} : Outcome α → Option α
  | .ret a _ => some a
  | _ => none

/-- A transport that gives the same answer to every request and records
nothing. -/
def constTransport (reply : Reply) : Request → State → Reply × State :=
  fun _ st => (reply, st)

/-- The options built with `WithNumber` and `WithOptions`, each with the
writes `(name, id)` it makes, in order. -/
inductive Writes : QueryOption → List (String × Int) → Prop where
  | number (name : String) (id : Int) : Writes (WithNumber name id) [(name, id)]
  | none : Writes (WithOptions []) []
  | more (opt : QueryOption) (opts : List QueryOption) (ws ws2 : List (String × Int)) :
      Writes opt ws → Writes (WithOptions opts) ws2 →
      Writes (WithOptions (opt :: opts)) (ws ++ ws2)

/-- The id of the last write to `name`, if any. -/
def lastWrite : List (String × Int) → String → Option Int
  | [], _ => none
  | w :: ws, name =>
    match lastWrite ws name with
    | some id => some id
    | none => if w.1 = name then some w.2 else none

/-- The invariant of a Go map: no key occurs twice. -/
def Values.Nodup (v : Values) : Prop := (v.entries.map Prod.fst).Nodup

/-- The values the map holds for a key (none when the key is absent). -/
def Values.valuesOf (v : Values) (key : String) : List String := (v.find key).getD []

/-- The reply is a successful page response whose body decodes to `page`. -/
def decodesTo (lib : Lib) (reply : Reply) (page : List Tweet) : Prop :=
  ∃ hdr body, reply = .ok ⟨200, hdr, .ok body⟩ ∧ lib.unmarshalTweets body = some page

/-- From the `k`-th answer on, the transport serves the pages `ps`, each
non-empty, as successful page responses, and then one empty page. -/
def Serves (lib : Lib) (env : Env) : Nat → List (List Tweet) → Prop
  | k, [] => decodesTo lib (env.pages k) []
  | k, p :: ps => p ≠ [] ∧ decodesTo lib (env.pages k) p ∧ Serves lib env (k + 1) ps

/-- The iterator has not failed, and what it will yield from now on is
`rest`: the part of the buffer not yet read, then the pages still to come. -/
def Ready (lib : Lib) (env : Env) (st : State) (rest : List Tweet) : Prop :=
  st.err = none ∧ ∃ ps, Serves lib env st.npages ps ∧ st.tweets.drop st.pos ++ ps.flatten = rest

/-- Every request of the iterator builds, whatever the cursor. -/
def Iterator.builds (it : Iterator) : Prop :=
  ∀ offset, (request it.Resource
    [WithOptions it.Options, WithOptions (cursorOptions offset)]).isOk = true

/-- The events of the iterator are none of the events of the destroy loop. -/
def quiet (extra : List Event) : Prop :=
  deleteCalls extra = [] ∧ destroyedCalls extra = [] ∧ promptCalls extra = []

/-- The effect of one event on the field `offset` of the iterator: a decoded
non-empty page sets it to the id of its last item minus one, in `int64`. -/
def cursorStep (cur : Int) (e : Event) : Int :=
  match e with
  | .page ts =>
    match ts.getLast? with
    | some last => wrapInt64 (last.ID - 1)
    | none => cur
  | _ => cur

/-- The value of `offset` that the events of a trace lead to, from zero. -/
def codeCursor (trace : List Event) : Int := trace.foldl cursorStep 0

/-- The effect of one event on the last item fetched so far. -/
def fetchedStep (acc : Option Tweet) (e : Event) : Option Tweet :=
  match e with
  | .page ts =>
    match ts.getLast? with
    | some last => some last
    | none => acc
  | _ => acc

/-- The last item of the last non-empty page decoded in a trace, if any. -/
def lastFetched (trace : List Event) : Option Tweet := trace.foldl fetchedStep none

/-- The `max_id` a request should carry after the events `pre`: none before
the first non-empty page, then the id of the last item fetched minus one. -/
def expectedCursor (pre : List Event) : Option Int :=
  (lastFetched pre).map (fun t => t.ID - 1)

/-- Every request of the iterator in the trace is the one that `request`
builds from the options of the iterator followed by the cursor option that
the events before it lead to. -/
def Consistent (it : Iterator) (trace : List Event) : Prop :=
  ∀ pre maxID req post, trace = pre ++ Event.list maxID req :: post →
    maxID = cursorOf (codeCursor pre)
    ∧ request it.Resource
        [WithOptions it.Options, WithOptions (cursorOptions (codeCursor pre))] = .ok req

/-- The option keeps the map a map: a Go function on a `url.Values` can only
leave a map behind, in which a key occurs once; the functions on association
lists that stand for options are asked to do the same. -/
def keepsMap (opt : QueryOption) : Prop := ∀ v : Values, v.Nodup → (opt v).Nodup

/-- The names of the placeholders of a template, in order. -/
def segmentNames (segs : List Segment) : List String :=
  segs.map (fun sg => String.mk sg.name)

/-- An iterator over the timeline whose own options write `max_id`. -/
def Iterator.pinned : Iterator := ⟨UserTimeline, [WithNumber "max_id" 99]⟩

/-- An environment with two pages of two tweets (ids 5, 4 and 3, 2), then the
empty page; every delete request succeeds; no wait is cancelled. -/
def Env.twoPages : Env :=
  { pages := fun i =>
      if i = 0 then Reply.success "ed" else if i = 1 then Reply.success "cb"
      else Reply.success ""
    dels := fun _ => Reply.success ""
    waits := fun _ => true }

/-- An environment whose first page holds the tweet of id 1 alone, followed by
the empty page. -/
def Env.lowID : Env :=
  { pages := fun i => if i = 0 then Reply.success "a" else Reply.success ""
    dels := fun _ => Reply.success ""
    waits := fun _ => true }

/-- The iterator that `Destroy` builds over the timeline. -/
def Iterator.sample : Iterator := ⟨UserTimeline, [WithNumber "count" 200]⟩

/-- The criteria matches the item (and does not panic on it). -/
def matched (lib : Lib) (d : Destroyer) (t : Tweet) : Bool :=
  match d.Criteria.Match lib t with
  | .ok b => b
  | .error _ => false

/-- The confirmation predicate confirms the item; always, when no predicate
is configured. -/
def confirmed (d : Destroyer) (t : Tweet) : Bool :=
  match d.Prompt with
  | some prompt => prompt t
  | none => true

/-- The criteria matches the item and the predicate confirms it. -/
def selected (lib : Lib) (d : Destroyer) (t : Tweet) : Bool :=
  matched lib d t && confirmed d t

/-- A destroyer of tweets that keeps replies only, confirms the items of odd
id, and has a `Destroyed` callback. -/
def Destroyer.replies : Destroyer :=
  { Get := UserTimeline, Del := DestroyTweet, Criteria := ⟨Time.zero, Time.zero, true, ""⟩,
    Prompt := some (fun t => decide (t.ID % 2 = 1)), Destroyed := true }

/-- An environment whose first page holds the tweet of id 20 alone, whose
timestamp does not parse, followed by the empty page. -/
def Env.malformed : Env :=
  { pages := fun i => if i = 0 then Reply.success "t" else Reply.success ""
    dels := fun _ => Reply.success ""
    waits := fun _ => true }

/-! ## Theorems -/

/-! ### Rendering a template -/

theorem slice_mid (pre mid post : List Char) :
    slice (pre ++ mid ++ post) pre.length (pre.length + mid.length) = mid := by
  unfold slice
  rw [List.append_assoc, List.take_append, List.drop_append_of_le_length (by simp)]
  simp

theorem renderLoop_text {σ : Type} (s : List Char) (lookup : String → σ → String × σ)
    (text rest : List Char) (i : Nat) (vars : RenderVars σ)
    (hw : vars.withinName = -1) (ht : ':' ∉ text) :
    renderLoop s lookup (text ++ rest) i vars = renderLoop s lookup rest (i + text.length) vars := by
  induction text generalizing i with
  | nil => simp
  | cons c cs ih =>
    have hc : c ≠ ':' := fun h => ht (by simp [h])
    have hcs : ':' ∉ cs := fun h => ht (by simp [h])
    simp only [List.cons_append, renderLoop, hc, hw, if_true, if_false, ite_self]
    refine (ih (i + 1) hcs).trans ?_
    simp only [List.length_cons]
    congr 1
    omega

theorem renderLoop_name {σ : Type} (s : List Char) (lookup : String → σ → String × σ)
    (name rest : List Char) (i : Nat) (vars : RenderVars σ)
    (hn : ∀ c ∈ name, isLower c) :
    renderLoop s lookup (name ++ rest) i vars = renderLoop s lookup rest (i + name.length) vars := by
  induction name generalizing i with
  | nil => simp
  | cons c cs ih =>
    have hc : 'a' ≤ c ∧ c ≤ 'z' := hn c (by simp)
    have hcs : ∀ c ∈ cs, isLower c := fun d hd => hn d (by simp [hd])
    simp only [List.cons_append, renderLoop, hc, and_self, if_true]
    refine (ih (i + 1) hcs).trans ?_
    simp only [List.length_cons]
    congr 1
    omega

theorem renderLoop_segments (f : String → String) (segs : List Segment) :
    ∀ (s pre chunk b : List Char),
      (∀ sg ∈ segs, sg.wellFormed) →
      (∀ sg ∈ segs, f (String.mk sg.name) ≠ "") →
      s = pre ++ chunk ++ segmentsText segs →
      ∃ vars, renderLoop s (pureLookup f) (segmentsText segs) (pre.length + chunk.length)
          { withinName := -1, offset := pre.length, b := b, env := () } = .ok vars
        ∧ vars.b ++ s.drop vars.offset = b ++ chunk ++ segmentsValue f segs
        ∧ (segs = [] → vars.b = b)
        ∧ (segs ≠ [] → vars.b ≠ []) := by
  induction segs with
  | nil =>
    intro s pre chunk b _ _ hs
    refine ⟨_, rfl, ?_, fun _ => rfl, fun h => absurd rfl h⟩
    subst hs
    simp [segmentsText, segmentsValue]
  | cons sg segs ih =>
    intro s pre chunk b hwf hf hs
    obtain ⟨hname, hstop, hcolon, htext⟩ := hwf sg (by simp)
    have hval : f (String.mk sg.name) ≠ "" := hf sg (by simp)
    have hs2 : s = (pre ++ chunk ++ ':' :: sg.name) ++ (sg.stop :: sg.text) ++ segmentsText segs := by
      rw [hs]; simp [segmentsText]
    obtain ⟨vars, hrun, hout, h3, h4⟩ := ih s (pre ++ chunk ++ ':' :: sg.name) (sg.stop :: sg.text)
      (b ++ chunk ++ (f (String.mk sg.name)).data)
      (fun x hx => hwf x (by simp [hx])) (fun x hx => hf x (by simp [hx])) hs2
    have htxt : segmentsText (sg :: segs)
        = ':' :: (sg.name ++ (sg.stop :: (sg.text ++ segmentsText segs))) := by
      simp [segmentsText]
    have hchunk : slice s pre.length (pre.length + chunk.length) = chunk := by
      rw [hs]; exact slice_mid pre chunk _
    have hnm : slice s (pre.length + chunk.length + 1) (pre.length + chunk.length + 1 + sg.name.length)
        = sg.name := by
      have h := slice_mid (pre ++ chunk ++ [':']) sg.name (sg.stop :: sg.text ++ segmentsText segs)
      have e : s = pre ++ chunk ++ [':'] ++ sg.name ++ (sg.stop :: sg.text ++ segmentsText segs) := by
        rw [hs2]; simp
      rw [e]
      simpa using h
    have hne : (↑(pre.length + chunk.length) + 1 : Int) ≠ -1 := by omega
    have hto : ((↑(pre.length + chunk.length) + 1 : Int)).toNat = pre.length + chunk.length + 1 := by
      omega
    have hd : (f (String.mk sg.name)).data ≠ [] := by
      intro h
      apply hval
      cases hv : f (String.mk sg.name) with
      | mk d => rw [hv] at h; simp at h; subst h; rfl
    refine ⟨vars, ?_, ?_, fun h => by simp at h, fun _ => ?_⟩
    · rw [htxt]
      have hc : ¬ ('a' ≤ ':' ∧ ':' ≤ 'z') := by decide
      rw [renderLoop]
      simp only [hc, if_false, if_true]
      rw [renderLoop_name _ _ _ _ _ _ hname]
      rw [renderLoop]
      have hstop2 : ¬ ('a' ≤ sg.stop ∧ sg.stop ≤ 'z') := hstop
      simp only [hstop2, hcolon, hne, hto, hnm, hchunk, if_false, pureLookup]
      have hval2 : ¬ (f (String.mk sg.name) = "") := hval
      simp only [hval2, if_false]
      rw [renderLoop_text _ _ _ _ _ _ rfl htext]
      rw [← hrun]
      congr 1
      all_goals (try simp)
      all_goals (try omega)
    · rw [hout]
      simp [segmentsValue]
    · by_cases hnil : segs = []
      · rw [h3 hnil]
        simp [hd]
      · exact h4 hnil

/-- C5: for a path that is literal text interleaved with `:name` placeholders,
each name a run of lowercase letters ended by a character that is neither a
lowercase letter nor a colon, and a lookup that is non-empty on every name,
`Render` succeeds; the path of the result is the template with each
placeholder replaced by its value and the literal text kept in order, the
method, query and the other fields of the URL are those of the input, and
with no placeholder the result is the input. -/
theorem Render_template (r : Resource) (f : String → String) (lit : List Char)
    (segs : List Segment)
    (hpath : r.url.Path.data = templatePath lit segs)
    (hlit : ':' ∉ lit)
    (hsegs : ∀ sg ∈ segs, sg.wellFormed)
    (hf : ∀ sg ∈ segs, f (String.mk sg.name) ≠ "") :
    ∃ res, r.Render (pureLookup f) () = .ok (res, ())
      ∧ res.url.Path.data = renderedPath f lit segs
      ∧ res.method = r.method
      ∧ res.url.RawQuery = r.url.RawQuery
      ∧ res.url.Scheme = r.url.Scheme
      ∧ res.url.Host = r.url.Host
      ∧ (segs = [] → res = r) := by
  obtain ⟨vars, hrun, hout, h3, h4⟩ := renderLoop_segments f segs (r.url.Path.data) [] lit []
    hsegs hf (by simpa [templatePath] using hpath)
  have hloop : renderLoop r.url.Path.data (pureLookup f) r.url.Path.data 0
      { withinName := -1, offset := 0, b := [], env := () } = .ok vars := by
    rw [← hrun]
    conv_lhs => arg 3; rw [hpath, templatePath]
    rw [renderLoop_text _ _ _ _ _ _ rfl hlit]
    simp
  by_cases hnil : segs = []
  · refine ⟨r, ?_, ?_, rfl, rfl, rfl, rfl, fun _ => rfl⟩
    · simp [Resource.Render, hloop, h3 hnil]
    · rw [hpath, hnil]
      simp [templatePath, renderedPath, segmentsText, segmentsValue]
  · have hb : vars.b.length > 0 := List.length_pos.mpr (h4 hnil)
    refine ⟨{ r with url := { r.url with
        Path := String.mk (vars.b ++ r.url.Path.data.drop vars.offset) } }, ?_, ?_,
      rfl, rfl, rfl, rfl, fun h => absurd h hnil⟩
    · simp [Resource.Render, hloop, hb]
    · simp only [hout, renderedPath]
      simp

/-- C5, at the template `/a/:x/:y.json` with `x=1`, `y=2`. -/
theorem Render_template_witness :
    ∃ res, Resource.Render ⟨"GET", ⟨"https", "twitter.com", "/a/:x/:y.json", [("k", "v")]⟩⟩
        (pureLookup (paramsLookup [("x", "1"), ("y", "2")])) () = .ok (res, ())
      ∧ res.url.Path.data = "/a/1/2.json".data
      ∧ res.method = "GET"
      ∧ res.url.RawQuery = [("k", "v")] := by
  obtain ⟨res, h1, h2, h3, h4, -⟩ := Render_template
    ⟨"GET", ⟨"https", "twitter.com", "/a/:x/:y.json", [("k", "v")]⟩⟩
    (paramsLookup [("x", "1"), ("y", "2")]) "/a/".data
    [⟨"x".data, '/', []⟩, ⟨"y".data, '.', "json".data⟩]
    (by decide) (by decide)
    (by
      intro sg h
      simp only [List.mem_cons, List.mem_singleton, List.not_mem_nil, or_false] at h
      rcases h with rfl | rfl <;> unfold Segment.wellFormed isLower <;> decide)
    (by
      intro sg h
      simp only [List.mem_cons, List.mem_singleton, List.not_mem_nil, or_false] at h
      rcases h with rfl | rfl <;> decide)
  exact ⟨res, h1, h2, h3, h4⟩

/-! ### The code at the inputs where it departs from the claims -/

/-- C4 (failing inputs): a placeholder at the very end of the path is not
replaced and the literal text before it is written twice, with no error; and
a placeholder directly followed by a colon is neither looked up nor replaced,
so `Render` succeeds although the lookup is empty for it. -/
theorem Render_misses_placeholders :
    Resource.Render ⟨"POST", ⟨"https", "api.twitter.com", "/a/:id", []⟩⟩
        (pureLookup (paramsLookup [("id", "7")])) ()
      = .ok (⟨"POST", ⟨"https", "api.twitter.com", "/a//a/:id", []⟩⟩, ())
    ∧ Resource.Render ⟨"POST", ⟨"https", "api.twitter.com", "/:a:b.json", []⟩⟩
        (pureLookup (paramsLookup [("b", "2")])) ()
      = .ok (⟨"POST", ⟨"https", "api.twitter.com", "//:a2.json", []⟩⟩, ()) := by
  decide

/-- C1 (failing input): the only delete request for the tweet of id 7 is
answered with 429 and the relax wait completes; `Destroy` issues no second
delete request for it: it calls `Destroyed`, goes on to fetch the next page
and returns nil. -/
theorem Destroy_does_not_retry :
    Destroyer.Destroy Lib.sample Env.limitedDelete Destroyer.sample 3
      = .ret none
          { npages := 2, ndels := 1, nwaits := 3, err := some GoError.EOF, offset := 6,
            tweets := [], pos := 1,
            trace :=
              [Event.limiterWait true,
                Event.list none ⟨"GET", ⟨"https", "api.twitter.com",
                  "/1.1/statuses/user_timeline.json", [("count", "200")]⟩⟩,
                Event.page [Tweet.withID 7],
                Event.delete 7 ⟨"POST", ⟨"https", "api.twitter.com",
                  "/1.1/statuses/destroy/7.json", []⟩⟩,
                Event.relax ⟨0, 0, Time.Unix 15⟩ true,
                Event.destroyed (Tweet.withID 7),
                Event.limiterWait true,
                Event.list (some 6) ⟨"GET", ⟨"https", "api.twitter.com",
                  "/1.1/statuses/user_timeline.json", [("count", "200"), ("max_id", "6")]⟩⟩,
                Event.page []] } := by
  decide

/-- C2 (failing input): the one delete request, for the tweet of id 7, is
answered with 429, never with success, and the `Destroyed` callback is called
with that tweet all the same. -/
theorem Destroy_reports_rejected_item :
    (∀ i, Env.limitedDelete.dels i = Reply.limited)
    ∧ deleteCalls (Destroyer.Destroy Lib.sample Env.limitedDelete Destroyer.sample 3).state.trace
      = [7]
    ∧ destroyedCalls (Destroyer.Destroy Lib.sample Env.limitedDelete Destroyer.sample 3).state.trace
      = [Tweet.withID 7] :=
  ⟨fun _ => rfl, by decide, by decide⟩

/-! ### The criteria matcher -/

/-- C6: `Criteria.Match` agrees with the reference definition: the zero
criteria matches every tweet, whatever its timestamp text, and for a criteria
that is not the zero value and a tweet whose `CreatedAt` parses to `date`,
`Match` returns exactly what the four filters of the reference say (reply
name empty or equal, not replies-only or reply id nonzero, minimum date zero
or date not before it, maximum date zero or date not after it). -/
theorem Match_reference (lib : Lib) :
    (∀ t : Tweet, Criteria.Match lib zeroCriteria t = .ok true)
    ∧ (∀ (c : Criteria) (t : Tweet) (date : Time),
        c ≠ zeroCriteria → lib.parseTime t.CreatedAt = some date →
        Criteria.Match lib c t = .ok (c.matchReference t date)
        ∧ (c.matchReference t date = true ↔
            (c.RepliesTo = "" ∨ t.InReplyToScreenName = c.RepliesTo)
            ∧ (c.RepliesOnly = false ∨ t.InReplyToStatusID ≠ 0)
            ∧ (c.MinDate.IsZero = true ∨ date.Before c.MinDate = false)
            ∧ (c.MaxDate.IsZero = true ∨ date.After c.MaxDate = false))) := by
  refine ⟨fun t => by simp [Criteria.Match, Criteria.Empty], ?_⟩
  intro c t date hc hparse
  constructor
  · have hE : c.Empty = false := by simp [Criteria.Empty, hc]
    simp only [Criteria.Match, hE, MustParseTime, hparse, Criteria.matchReference]
    by_cases h1 : c.RepliesTo = "" <;> by_cases h2 : t.InReplyToScreenName = c.RepliesTo <;>
      by_cases h3 : c.RepliesOnly = true <;> by_cases h4 : t.InReplyToStatusID = 0 <;>
      cases h5 : c.MinDate.IsZero <;> cases h6 : date.Before c.MinDate <;>
      cases h7 : c.MaxDate.IsZero <;> cases h8 : date.After c.MaxDate <;>
      simp_all
  · simp only [Criteria.matchReference, Bool.and_eq_true, Bool.or_eq_true, decide_eq_true_eq,
      Bool.not_eq_true', and_assoc]

/-- C6, at a criteria with a minimum date and replies only, and a reply dated
at the Unix epoch, which the minimum date rejects. -/
theorem Match_reference_witness :
    Criteria.Match Lib.sample ⟨Time.zero, Time.Unix 5, true, ""⟩
        { Tweet.zero with CreatedAt := "epoch", InReplyToStatusID := 3 } = .ok false :=
  ((Match_reference Lib.sample).2 ⟨Time.zero, Time.Unix 5, true, ""⟩
    { Tweet.zero with CreatedAt := "epoch", InReplyToStatusID := 3 } (Time.Unix 0)
    (by decide) (by decide)).1

/-! ### The API client -/

/-- C9 (as stated, refuted): a response with status 204, a 2xx status, and a
readable body is turned into an API error, not into the body. -/
theorem Do_rejects_status_204 :
    (200 ≤ (204 : Int) ∧ (204 : Int) < 300)
    ∧ (Client.Do Lib.sample (constTransport (.ok ⟨204, [], .ok "done"⟩)) DestroyFavorite
        [WithNumber "id" 1] State.init).value
      = some (.error (.api ⟨204, [], RateLimit.zero⟩)) := by
  decide

/-- C9 (amended): for every request that builds and every response whose body
is readable, `Client.Do` returns the body with no error when the status is
200, and for every other status returns an API error whose `StatusCode` is
the status of the response, whose `RateLimit` is the one parsed from the
headers of the response, and whose entries are those decoded from the body
(none when the body does not decode). -/
theorem Do_status (lib : Lib) (http : Request → State → Reply × State) (res : Resource)
    (opts : List QueryOption) (st : State) (req : Request) (resp : Response) (body : String)
    (hreq : request res opts = .ok req)
    (hresp : (http req st).1 = .ok resp)
    (hbody : resp.Body = .ok body) :
    Client.Do lib http res opts st
      = .ret
          (if resp.StatusCode = 200 then .ok body
           else .error (.api
            { StatusCode := resp.StatusCode
              Errors := (lib.unmarshalErrorResponse body).getD []
              RateLimit := (parseRateLimit lib resp.Header).1 }))
          (http req st).2 := by
  simp only [Client.Do, hreq, Client.handle, hresp, hbody, StatusOK, decodeErrors]
  by_cases h : resp.StatusCode = 200 <;> simp [h]

/-- C9 (amended), at a 429 response carrying a reset header. -/
theorem Do_status_witness :
    Client.Do Lib.sample (constTransport Reply.limited) DestroyFavorite [WithNumber "id" 1]
        State.init
      = .ret (.error (.api ⟨429, [], ⟨0, 0, Time.Unix 15⟩⟩)) State.init :=
  Do_status Lib.sample (constTransport Reply.limited) DestroyFavorite [WithNumber "id" 1]
    State.init
    ⟨"POST", ⟨"https", "api.twitter.com", "/1.1/favorites/destroy.json", [("id", "1")]⟩⟩
    ⟨429, [("X-Rate-Limit-Reset", "15")], .ok ""⟩ "" (by decide) (by decide) (by decide)

/-! ### Query maps -/

theorem lookup_filter_key {β : Type} (p : String → Bool) (l : List (String × β)) (k : String) :
    (l.filter (fun e => p e.1)).lookup k = if p k then l.lookup k else none := by
  induction l with
  | nil => simp
  | cons e es ih =>
    obtain ⟨a, b⟩ := e
    by_cases hpa : p a = true
    · simp only [List.filter_cons, hpa, if_true, List.lookup_cons]
      by_cases hk : k = a
      · subst hk; simp [hpa]
      · have : (k == a) = false := by simpa using hk
        simp only [this, ih]
    · have hpa2 : p a = false := by simpa using hpa
      have hf : List.filter (fun e => p e.1) ((a, b) :: es) = List.filter (fun e => p e.1) es := by
        simp [List.filter_cons, hpa2]
      rw [hf, ih]
      by_cases hk : k = a
      · subst hk; simp [hpa2]
      · have : (k == a) = false := by simpa using hk
        simp [List.lookup_cons, this]

theorem lookup_append {β : Type} (l1 l2 : List (String × β)) (k : String) :
    (l1 ++ l2).lookup k = (l1.lookup k).orElse (fun _ => l2.lookup k) := by
  induction l1 with
  | nil => simp
  | cons e es ih =>
    obtain ⟨a, b⟩ := e
    by_cases hk : k = a
    · subst hk; simp
    · have : (k == a) = false := by simpa using hk
      simp [List.lookup_cons, this, ih]

theorem find_Del (v : Values) (key k : String) :
    (v.Del key).find k = if k = key then none else v.find k := by
  unfold Values.Del Values.find
  rw [lookup_filter_key (fun a => a != key)]
  by_cases hk : k = key <;> simp [hk]

theorem find_Set (v : Values) (key value k : String) :
    (v.Set key value).find k = if k = key then some [value] else v.find k := by
  have hd := find_Del v key k
  unfold Values.find at hd
  unfold Values.Set Values.find
  rw [lookup_append, hd]
  by_cases hk : k = key
  · subst hk; simp
  · have : (k == key) = false := by simpa using hk
    simp [hk, List.lookup_cons, this]

theorem find_Add (v : Values) (key value k : String) :
    (v.Add key value).find k
      = if k = key then some ((v.find key).getD [] ++ [value]) else v.find k := by
  have hd := find_Del v key k
  unfold Values.find at hd
  unfold Values.Add Values.find
  rw [lookup_append, hd]
  by_cases hk : k = key
  · subst hk; simp
  · have : (k == key) = false := by simpa using hk
    simp [hk, List.lookup_cons, this]

theorem mem_iff_lookup {β : Type} (l : List (String × β)) (nd : (l.map Prod.fst).Nodup)
    (k : String) (b : β) : (k, b) ∈ l ↔ l.lookup k = some b := by
  induction l with
  | nil => simp
  | cons e es ih =>
    obtain ⟨a, c⟩ := e
    simp only [List.map_cons, List.nodup_cons] at nd
    by_cases hk : k = a
    · subst hk
      have hno : ∀ b, (k, b) ∉ es := fun b hb => nd.1 (List.mem_map_of_mem Prod.fst hb)
      simp [List.lookup_cons, hno, eq_comm]
    · have : (k == a) = false := by simpa using hk
      simp [List.lookup_cons, this, hk, ih nd.2]

theorem Nodup_empty : Values.empty.Nodup := by
  simp [Values.Nodup, Values.empty]

theorem Nodup_Del (v : Values) (key : String) (h : v.Nodup) : (v.Del key).Nodup := by
  unfold Values.Nodup Values.Del at *
  exact h.sublist ((List.filter_sublist _).map Prod.fst)

theorem Nodup_put (v : Values) (key : String) (xs : List String) (h : v.Nodup) :
    (Values.mk ((v.Del key).entries ++ [(key, xs)])).Nodup := by
  have hd := Nodup_Del v key h
  unfold Values.Nodup at *
  simp only [List.map_append, List.map_cons, List.map_nil]
  refine List.Nodup.append hd (by simp) ?_
  intro a ha hb
  simp only [List.mem_singleton] at hb
  subst hb
  simp [Values.Del] at ha

theorem Nodup_Set (v : Values) (key value : String) (h : v.Nodup) : (v.Set key value).Nodup :=
  Nodup_put v key [value] h

theorem Nodup_Add (v : Values) (key value : String) (h : v.Nodup) : (v.Add key value).Nodup :=
  Nodup_put v key _ h

theorem mem_insertByKey (e x : String × List String) (l : List (String × List String)) :
    x ∈ insertByKey e l ↔ x = e ∨ x ∈ l := by
  induction l with
  | nil => simp [insertByKey]
  | cons y ys ih =>
    unfold insertByKey
    split
    · simp
    · simp only [List.mem_cons, ih]
      tauto

theorem mem_sortByKey (x : String × List String) (l : List (String × List String)) :
    x ∈ sortByKey l ↔ x ∈ l := by
  induction l with
  | nil => simp [sortByKey]
  | cons y ys ih => simp [sortByKey, mem_insertByKey, ih]

theorem mem_Encode (v : Values) (h : v.Nodup) (k x : String) :
    (k, x) ∈ v.Encode ↔ x ∈ v.valuesOf k := by
  unfold Values.Encode Values.valuesOf Values.find
  simp only [List.mem_flatMap, List.mem_map, mem_sortByKey, Prod.mk.injEq]
  constructor
  · rintro ⟨⟨a, xs⟩, hmem, y, hy, rfl, rfl⟩
    rw [(mem_iff_lookup _ h a xs).mp hmem]
    simpa using hy
  · intro hx
    cases hl : v.entries.lookup k with
    | none => rw [hl] at hx; simp at hx
    | some xs =>
      rw [hl] at hx
      exact ⟨(k, xs), (mem_iff_lookup _ h k xs).mpr hl, x, by simpa using hx, rfl, rfl⟩

theorem valuesOf_Add (v : Values) (key value k x : String) :
    x ∈ (v.Add key value).valuesOf k ↔ x ∈ v.valuesOf k ∨ (k = key ∧ x = value) := by
  unfold Values.valuesOf
  rw [find_Add]
  by_cases hk : k = key
  · subst hk; simp
  · simp [hk]

theorem valuesOf_foldl_Add (name : String) (values : List String) (v : Values) (k x : String) :
    x ∈ (values.foldl (fun v val => v.Add name val) v).valuesOf k
      ↔ x ∈ v.valuesOf k ∨ (k = name ∧ x ∈ values) := by
  induction values generalizing v with
  | nil => simp
  | cons y ys ih =>
    simp only [List.foldl_cons, ih, valuesOf_Add, List.mem_cons]
    tauto

theorem Nodup_foldl_Add (name : String) (values : List String) (v : Values) (h : v.Nodup) :
    (values.foldl (fun v val => v.Add name val) v).Nodup := by
  induction values generalizing v with
  | nil => simpa
  | cons y ys ih => exact ih _ (Nodup_Add v name y h)

theorem valuesOf_pairs (pairs : List (String × String)) (v : Values) (k x : String) :
    x ∈ (pairs.foldl (fun v kv => v.Add kv.1 kv.2) v).valuesOf k
      ↔ x ∈ v.valuesOf k ∨ (k, x) ∈ pairs := by
  induction pairs generalizing v with
  | nil => simp
  | cons p ps ih =>
    obtain ⟨a, b⟩ := p
    simp only [List.foldl_cons, ih, valuesOf_Add, List.mem_cons, Prod.mk.injEq]
    tauto

theorem Nodup_pairs (pairs : List (String × String)) (v : Values) (h : v.Nodup) :
    (pairs.foldl (fun v kv => v.Add kv.1 kv.2) v).Nodup := by
  induction pairs generalizing v with
  | nil => simpa
  | cons p ps ih => exact ih _ (Nodup_Add v p.1 p.2 h)

theorem valuesOf_Query (u : URL) (k x : String) :
    x ∈ u.Query.valuesOf k ↔ (k, x) ∈ u.RawQuery := by
  unfold URL.Query
  rw [valuesOf_pairs]
  simp [Values.valuesOf, Values.find, Values.empty]

theorem Nodup_Query (u : URL) : u.Query.Nodup :=
  Nodup_pairs _ _ Nodup_empty

theorem mergeStatic_spec (entries : List (String × List String)) :
    ∀ (v w : Values), mergeStatic entries v = .ok w → v.Nodup →
      w.Nodup ∧ ∀ k x, x ∈ w.valuesOf k
        ↔ x ∈ v.valuesOf k ∨ ∃ xs, (k, xs) ∈ entries ∧ x ∈ xs := by
  induction entries with
  | nil =>
    intro v w h nd
    simp only [mergeStatic, Except.ok.injEq] at h
    subst h
    exact ⟨nd, by simp⟩
  | cons e es ih =>
    intro v w h nd
    obtain ⟨name, values⟩ := e
    simp only [mergeStatic] at h
    split at h
    · simp at h
    · obtain ⟨hw, hval⟩ := ih _ w h (Nodup_foldl_Add name values v nd)
      refine ⟨hw, fun k x => ?_⟩
      rw [hval, valuesOf_foldl_Add]
      simp only [List.mem_cons, Prod.mk.injEq]
      constructor
      · rintro ((h1 | ⟨rfl, h2⟩) | ⟨xs, h3, h4⟩)
        · exact Or.inl h1
        · exact Or.inr ⟨values, Or.inl ⟨rfl, rfl⟩, h2⟩
        · exact Or.inr ⟨xs, Or.inr h3, h4⟩
      · rintro (h1 | ⟨xs, (⟨rfl, rfl⟩ | h3), h4⟩)
        · exact Or.inl (Or.inl h1)
        · exact Or.inl (Or.inr ⟨rfl, h4⟩)
        · exact Or.inr ⟨xs, h3, h4⟩

/-! ### Options -/

theorem Writes_apply (opt : QueryOption) (ws : List (String × Int)) (h : Writes opt ws) :
    ∀ v, opt v = ws.foldl (fun v w => v.Set w.1 (FormatInt w.2)) v := by
  induction h with
  | number name id => intro v; rfl
  | none => intro v; rfl
  | more opt opts ws ws2 _ _ ih1 ih2 =>
    intro v
    rw [List.foldl_append, ← ih1 v, ← ih2 (opt v)]
    rfl

theorem find_writes (ws : List (String × Int)) (v : Values) (k : String) :
    (ws.foldl (fun v w => v.Set w.1 (FormatInt w.2)) v).find k
      = match lastWrite ws k with
        | some id => some [FormatInt id]
        | none => v.find k := by
  induction ws generalizing v with
  | nil => simp [lastWrite]
  | cons w ws ih =>
    simp only [List.foldl_cons, ih, lastWrite]
    cases hl : lastWrite ws k with
    | some id => simp
    | none =>
      simp only [find_Set]
      by_cases hk : w.1 = k
      · simp [hk]
      · have hk2 : ¬ k = w.1 := fun h => hk h.symm
        simp [hk, hk2]

theorem Nodup_writes (ws : List (String × Int)) (v : Values) (h : v.Nodup) :
    (ws.foldl (fun v w => v.Set w.1 (FormatInt w.2)) v).Nodup := by
  induction ws generalizing v with
  | nil => simpa
  | cons w ws ih => exact ih _ (Nodup_Set v w.1 _ h)

/-! ### Rendering with the consuming lookup -/

theorem Get_Del (v : Values) (key k : String) :
    (v.Del key).Get k = if k = key then "" else v.Get k := by
  unfold Values.Get
  rw [find_Del]
  by_cases hk : k = key <;> simp [hk]

theorem slice_pre (pre rest : List Char) (w : Nat) :
    slice (pre ++ rest) w pre.length = pre.drop w := by
  simp [slice]

theorem mem_drop_snoc (pre : List Char) (c x : Char) (w : Nat)
    (h : x ∈ (pre ++ [c]).drop w) : x ∈ pre.drop w ∨ x = c := by
  rw [List.drop_append_eq_append_drop] at h
  rcases List.mem_append.mp h with h1 | h2
  · exact Or.inl h1
  · right
    have := List.mem_of_mem_drop h2
    simpa using this

theorem renderLoop_names (s : List Char) (rest : List Char) :
    ∀ (pre : List Char) (vars out : RenderVars Values),
      s = pre ++ rest →
      (vars.withinName = -1
        ∨ ∃ w : Nat, vars.withinName = (w : Int) ∧ ∀ c ∈ pre.drop w, isLower c) →
      renderLoop s consume rest pre.length vars = .ok out →
      ∃ names : List String,
        (∀ n ∈ names, ∀ c ∈ n.data, isLower c)
        ∧ out.env.entries = vars.env.entries.filter (fun e => !names.contains e.1) := by
  induction rest with
  | nil =>
    intro pre vars out _ _ h
    simp only [renderLoop, Except.ok.injEq] at h
    subst h
    exact ⟨[], by simp, by simp⟩
  | cons c cs ih =>
    intro pre vars out hs hinv h
    have hs2 : s = (pre ++ [c]) ++ cs := by rw [hs]; simp
    have hlen : (pre ++ [c]).length = pre.length + 1 := by simp
    rw [renderLoop] at h
    by_cases h1 : 'a' ≤ c ∧ c ≤ 'z'
    · rw [if_pos h1, ← hlen] at h
      refine ih (pre ++ [c]) vars out hs2 ?_ h
      rcases hinv with hw | ⟨w, hw, hall⟩
      · exact Or.inl hw
      · refine Or.inr ⟨w, hw, fun x hx => ?_⟩
        rcases mem_drop_snoc pre c x w hx with hx1 | hx2
        · exact hall x hx1
        · rw [hx2]; exact h1
    · rw [if_neg h1] at h
      by_cases h2 : c = ':'
      · rw [if_pos h2, ← hlen] at h
        have hcolon := ih (pre ++ [c])
          { vars with withinName := (pre.length : Int) + 1,
                      b := vars.b ++ slice s vars.offset pre.length } out hs2
          (Or.inr ⟨pre.length + 1, by simp, by simp⟩) h
        exact hcolon
      · rw [if_neg h2] at h
        by_cases h3 : vars.withinName = -1
        · rw [if_pos h3, ← hlen] at h
          exact ih (pre ++ [c]) vars out hs2 (Or.inl h3) h
        · rw [if_neg h3] at h
          simp only at h
          by_cases h4 : (consume (String.mk (slice s vars.withinName.toNat pre.length)) vars.env).1 = ""
          · rw [if_pos h4] at h
            simp at h
          · rw [if_neg h4, ← hlen] at h
            obtain ⟨names, hlow, hn⟩ := ih (pre ++ [c]) _ out hs2 (Or.inl rfl) h
            refine ⟨String.mk (slice s vars.withinName.toNat pre.length) :: names, ?_, ?_⟩
            · intro n hn2
              rcases List.mem_cons.mp hn2 with rfl | hn3
              · rcases hinv with hw | ⟨w, hw, hall⟩
                · exact absurd hw h3
                · intro x hx
                  have hw2 : vars.withinName.toNat = w := by omega
                  rw [hw2, hs, slice_pre] at hx
                  exact hall x hx
              · exact hlow n hn3
            · rw [hn]
              simp only [consume, Values.Del, List.filter_filter]
              congr 1
              funext e
              simp only [List.contains_cons, Bool.not_or, bne, Bool.and_comm]

theorem Render_consume (r res : Resource) (v0 v1 : Values)
    (h : r.Render consume v0 = .ok (res, v1)) :
    res.method = r.method ∧ res.url.Scheme = r.url.Scheme ∧ res.url.Host = r.url.Host
      ∧ res.url.RawQuery = r.url.RawQuery
      ∧ (v0.Nodup → v1.Nodup)
      ∧ ∃ names : List String,
        (∀ n ∈ names, ∀ c ∈ n.data, isLower c)
        ∧ ∀ k, v1.find k = if names.contains k then none else v0.find k := by
  unfold Resource.Render at h
  simp only at h
  split at h
  · simp at h
  · rename_i vars hloop
    obtain ⟨names, hlow, hn⟩ := renderLoop_names r.url.Path.data r.url.Path.data [] _ _
      (by simp) (Or.inl rfl) hloop
    simp only at hn
    have henv : v1 = vars.env := by
      split at h <;> simp only [Except.ok.injEq, Prod.mk.injEq] at h <;> exact h.2.symm
    have hres : res.method = r.method ∧ res.url.Scheme = r.url.Scheme
        ∧ res.url.Host = r.url.Host ∧ res.url.RawQuery = r.url.RawQuery := by
      split at h <;> simp only [Except.ok.injEq, Prod.mk.injEq] at h <;>
        (rw [← h.1]; exact ⟨rfl, rfl, rfl, rfl⟩)
    refine ⟨hres.1, hres.2.1, hres.2.2.1, hres.2.2.2, ?_, names, hlow, ?_⟩
    · intro nd
      rw [henv]
      unfold Values.Nodup at *
      rw [hn]
      exact nd.sublist ((List.filter_sublist _).map Prod.fst)
    · intro k
      rw [henv]
      unfold Values.find
      rw [hn, lookup_filter_key (fun a => !names.contains a)]
      cases hc : names.contains k <;> simp

theorem segmentsValue_congr (f g : String → String) (segs : List Segment)
    (h : ∀ sg ∈ segs, f (String.mk sg.name) = g (String.mk sg.name)) :
    segmentsValue f segs = segmentsValue g segs := by
  induction segs with
  | nil => rfl
  | cons sg segs ih =>
    have h1 := h sg (by simp)
    have h2 := ih (fun x hx => h x (by simp [hx]))
    simp only [segmentsValue, List.flatMap_cons] at h2 ⊢
    rw [h1, h2]

theorem renderLoop_segments_consume (segs : List Segment) :
    ∀ (s pre chunk b : List Char) (v : Values) (out : RenderVars Values),
      (∀ sg ∈ segs, sg.wellFormed) →
      s = pre ++ chunk ++ segmentsText segs →
      renderLoop s consume (segmentsText segs) (pre.length + chunk.length)
          { withinName := -1, offset := pre.length, b := b, env := v } = .ok out →
      out.b ++ s.drop out.offset = b ++ chunk ++ segmentsValue v.Get segs
        ∧ out.env.entries
          = v.entries.filter (fun e => !(segmentNames segs).contains e.1)
        ∧ (∀ sg ∈ segs, v.Get (String.mk sg.name) ≠ "")
        ∧ (segs = [] → out.b = b)
        ∧ (segs ≠ [] → out.b ≠ []) := by
  induction segs with
  | nil =>
    intro s pre chunk b v out _ hs h
    simp only [segmentsText, List.flatMap_nil, renderLoop, Except.ok.injEq] at h
    subst h
    subst hs
    simp [segmentsText, segmentsValue, segmentNames]
  | cons sg segs ih =>
    intro s pre chunk b v out hwf hs h
    obtain ⟨hname, hstop, hcolon, htext⟩ := hwf sg (by simp)
    have hs2 : s = (pre ++ chunk ++ ':' :: sg.name) ++ (sg.stop :: sg.text) ++ segmentsText segs := by
      rw [hs]; simp [segmentsText]
    have htxt : segmentsText (sg :: segs)
        = ':' :: (sg.name ++ (sg.stop :: (sg.text ++ segmentsText segs))) := by
      simp [segmentsText]
    have hchunk : slice s pre.length (pre.length + chunk.length) = chunk := by
      rw [hs]; exact slice_mid pre chunk _
    have hnm : slice s (pre.length + chunk.length + 1) (pre.length + chunk.length + 1 + sg.name.length)
        = sg.name := by
      have h2 := slice_mid (pre ++ chunk ++ [':']) sg.name (sg.stop :: sg.text ++ segmentsText segs)
      have e : s = pre ++ chunk ++ [':'] ++ sg.name ++ (sg.stop :: sg.text ++ segmentsText segs) := by
        rw [hs2]; simp
      rw [e]
      simpa using h2
    have hne : (↑(pre.length + chunk.length) + 1 : Int) ≠ -1 := by omega
    have hto : ((↑(pre.length + chunk.length) + 1 : Int)).toNat = pre.length + chunk.length + 1 := by
      omega
    have hc : ¬ ('a' ≤ ':' ∧ ':' ≤ 'z') := by decide
    have hstop2 : ¬ ('a' ≤ sg.stop ∧ sg.stop ≤ 'z') := hstop
    rw [htxt, renderLoop] at h
    simp only [hc, if_false, if_true] at h
    rw [renderLoop_name _ _ _ _ _ _ hname, renderLoop] at h
    simp only [hstop2, hcolon, hne, hto, hnm, hchunk, if_false, consume] at h
    by_cases hval : v.Get (String.mk sg.name) = ""
    · rw [if_pos hval] at h
      simp at h
    · rw [if_neg hval, renderLoop_text _ _ _ _ _ _ rfl htext] at h
      have h2 : renderLoop s consume (segmentsText segs)
          ((pre ++ chunk ++ ':' :: sg.name).length + (sg.stop :: sg.text).length)
          { withinName := -1, offset := (pre ++ chunk ++ ':' :: sg.name).length,
            b := b ++ chunk ++ (v.Get (String.mk sg.name)).data,
            env := v.Del (String.mk sg.name) } = .ok out := by
        rw [← h]
        congr 1
        all_goals (try simp)
        all_goals (try omega)
      obtain ⟨hout, hent, hget, -, h4⟩ := ih s (pre ++ chunk ++ ':' :: sg.name)
        (sg.stop :: sg.text) _ _ out (fun x hx => hwf x (by simp [hx])) hs2 h2
      have hrest : ∀ x ∈ segs, String.mk x.name ≠ String.mk sg.name
          ∧ (v.Del (String.mk sg.name)).Get (String.mk x.name) = v.Get (String.mk x.name) := by
        intro x hx
        have hx2 := hget x hx
        rw [Get_Del] at hx2 ⊢
        by_cases hk : String.mk x.name = String.mk sg.name
        · simp [hk] at hx2
        · simp [hk]
      have hd : (v.Get (String.mk sg.name)).data ≠ [] := by
        intro hnil
        apply hval
        cases hv : v.Get (String.mk sg.name) with
        | mk d => rw [hv] at hnil; simp at hnil; subst hnil; rfl
      refine ⟨?_, ?_, ?_, fun hnil => by simp at hnil, fun _ => ?_⟩
      · rw [hout, segmentsValue_congr _ v.Get segs (fun x hx => (hrest x hx).2)]
        simp [segmentsValue]
      · rw [hent]
        simp only [Values.Del, List.filter_filter, segmentNames, List.map_cons]
        congr 1
        funext e
        simp only [List.contains_cons, Bool.not_or, bne, Bool.and_comm]
      · intro x hx
        rcases List.mem_cons.mp hx with rfl | hx2
        · exact hval
        · rw [← (hrest x hx2).2]
          exact hget x hx2
      · by_cases hnil : segs = []
        · subst hnil
          simp only [segmentsText, List.flatMap_nil, renderLoop, Except.ok.injEq] at h2
          rw [← h2]
          simp [hd]
        · exact h4 hnil

theorem Render_template_consume (r res : Resource) (v0 v1 : Values) (lit : List Char)
    (segs : List Segment)
    (hpath : r.url.Path.data = templatePath lit segs)
    (hlit : ':' ∉ lit)
    (hsegs : ∀ sg ∈ segs, sg.wellFormed)
    (h : r.Render consume v0 = .ok (res, v1)) :
    res.url.Path.data = renderedPath v0.Get lit segs
      ∧ (∀ sg ∈ segs, v0.Get (String.mk sg.name) ≠ "")
      ∧ ∀ k, v1.find k = if (segmentNames segs).contains k then none else v0.find k := by
  unfold Resource.Render at h
  simp only at h
  have hl : renderLoop r.url.Path.data consume r.url.Path.data 0
      { withinName := -1, offset := 0, b := [], env := v0 }
      = renderLoop r.url.Path.data consume (segmentsText segs)
          (([] : List Char).length + lit.length)
          { withinName := -1, offset := ([] : List Char).length, b := [], env := v0 } := by
    conv_lhs => arg 3; rw [hpath, templatePath]
    rw [renderLoop_text _ _ _ _ _ _ rfl hlit]
    simp
  rw [hl] at h
  split at h
  · simp at h
  · rename_i vars hloop
    obtain ⟨hout, hent, hget, h3, h4⟩ := renderLoop_segments_consume segs r.url.Path.data [] lit
      [] v0 vars hsegs (by simpa [templatePath] using hpath) hloop
    have hfind : ∀ k, vars.env.find k
        = if (segmentNames segs).contains k then none else v0.find k := by
      intro k
      unfold Values.find
      rw [hent, lookup_filter_key (fun a => !(segmentNames segs).contains a)]
      cases hc : (segmentNames segs).contains k <;> simp
    by_cases hnil : segs = []
    · have hb : ¬ vars.b.length > 0 := by rw [h3 hnil]; simp
      rw [if_neg hb] at h
      simp only [Except.ok.injEq, Prod.mk.injEq] at h
      obtain ⟨h1, h2⟩ := h
      subst h1 h2
      refine ⟨?_, hget, hfind⟩
      rw [hpath, hnil]
      simp [templatePath, renderedPath, segmentsText, segmentsValue]
    · have hb : vars.b.length > 0 := List.length_pos.mpr (h4 hnil)
      rw [if_pos hb] at h
      simp only [Except.ok.injEq, Prod.mk.injEq] at h
      obtain ⟨h1, h2⟩ := h
      subst h1 h2
      refine ⟨?_, hget, hfind⟩
      simp only [hout, renderedPath]
      simp

/-! ### Building requests -/

theorem toDigitsCore_ne_nil (b fuel n : Nat) (ds : List Char) (h : ds ≠ []) :
    Nat.toDigitsCore b fuel n ds ≠ [] := by
  induction fuel generalizing n ds with
  | zero => simpa [Nat.toDigitsCore]
  | succ f ih =>
    simp only [Nat.toDigitsCore]
    split
    · simp
    · exact ih _ _ (by simp)

theorem repr_ne_empty (n : Nat) : Nat.repr n ≠ "" := by
  intro h
  have h2 : (Nat.repr n).data = [] := by rw [h]
  simp only [Nat.repr, List.asString, Nat.toDigits, Nat.toDigitsCore] at h2
  split at h2
  · simp at h2
  · exact toDigitsCore_ne_nil _ _ _ _ (by simp) h2

theorem FormatInt_ne_empty (id : Int) : FormatInt id ≠ "" := by
  unfold FormatInt
  split
  · intro h
    have h2 : ("-" ++ Nat.repr id.natAbs).data = [] := by rw [h]
    simp at h2
  · exact repr_ne_empty _

theorem request_DestroyTweet (id : Int) :
    request DestroyTweet [WithNumber "id" id]
      = .ok ⟨"POST", ⟨"https", "api.twitter.com",
          String.mk ("/1.1/statuses/destroy/".data ++ (FormatInt id).data ++ ".json".data), []⟩⟩ := by
  have hne := FormatInt_ne_empty id
  have hd : (FormatInt id).data ≠ [] := by
    intro h
    apply hne
    cases hv : FormatInt id with
    | mk d => rw [hv] at h; simp at h; subst h; rfl
  simp [request, DestroyTweet, Resource.Render, renderLoop, WithNumber, Values.Set, Values.Del,
    Values.empty, consume, Values.Get, Values.find, slice, hne, hd, mergeStatic, URL.Query,
    Values.Encode, sortByKey]

theorem request_DestroyFavorite (id : Int) :
    request DestroyFavorite [WithNumber "id" id]
      = .ok ⟨"POST", ⟨"https", "api.twitter.com", "/1.1/favorites/destroy.json",
          [("id", FormatInt id)]⟩⟩ := by
  simp [request, DestroyFavorite, Resource.Render, renderLoop, WithNumber, Values.Set, Values.Del,
    Values.empty, mergeStatic, URL.Query, Values.Encode, sortByKey, insertByKey]

theorem Render_plain {σ : Type} (r : Resource) (lookup : String → σ → String × σ) (env : σ)
    (h : ':' ∉ r.url.Path.data) : r.Render lookup env = .ok (r, env) := by
  have hl := renderLoop_text r.url.Path.data lookup r.url.Path.data [] 0
    { withinName := -1, offset := 0, b := [], env := env } rfl h
  rw [List.append_nil] at hl
  simp [Resource.Render, hl, renderLoop]

theorem request_plain (r : Resource) (opts : List QueryOption)
    (hpath : ':' ∉ r.url.Path.data) (hquery : r.url.RawQuery = []) :
    (request r opts).isOk = true := by
  unfold request
  split
  · simp only [Render_plain r consume _ hpath, URL.Query, hquery, List.foldl_nil, Values.empty,
      mergeStatic]
    rfl
  · rfl

/-- C10 (as stated, refuted): for the resource `/:id.json` with the static
query `id=5` and the option `id=7`, the request builds without panic, the
placeholder consumes the option `id`, and `id` appears in the query string. -/
theorem request_consumed_name_in_query :
    request ⟨"POST", ⟨"https", "api.twitter.com", "/:id.json", [("id", "5")]⟩⟩
        [WithNumber "id" 7]
      = .ok ⟨"POST", ⟨"https", "api.twitter.com", "/7.json", [("id", "5")]⟩⟩ := by
  decide

theorem find_foldl_Add_ne (name : String) (values : List String) (v : Values) (k : String)
    (hk : k ≠ name) : (values.foldl (fun v val => v.Add name val) v).find k = v.find k := by
  induction values generalizing v with
  | nil => rfl
  | cons y ys ih =>
    simp only [List.foldl_cons]
    rw [ih, find_Add, if_neg hk]

theorem mergeStatic_absent (entries : List (String × List String)) :
    ∀ (v w : Values), mergeStatic entries v = .ok w → (entries.map Prod.fst).Nodup →
      ∀ k xs, (k, xs) ∈ entries → v.find k = none := by
  induction entries with
  | nil => intro v w _ _ k xs h; simp at h
  | cons e es ih =>
    intro v w h nd k xs hmem
    obtain ⟨name, values⟩ := e
    simp only [List.map_cons, List.nodup_cons] at nd
    simp only [mergeStatic] at h
    split at h
    · simp at h
    · rename_i hnone
      rcases List.mem_cons.mp hmem with heq | htail
      · simp only [Prod.mk.injEq] at heq
        rw [heq.1]
        cases hf : v.find name with
        | none => rfl
        | some ys => rw [hf] at hnone; simp at hnone
      · have hk : k ≠ name := by
          intro hkn
          apply nd.1
          rw [← hkn]
          exact List.mem_map_of_mem Prod.fst htail
        have := ih _ w h nd.2 k xs htail
        rwa [find_foldl_Add_ne name values v k hk] at this

theorem keepsMap_WithNumber (name : String) (id : Int) : keepsMap (WithNumber name id) :=
  fun v h => Nodup_Set v name _ h

theorem Nodup_options (opts : List QueryOption) (h : ∀ opt ∈ opts, keepsMap opt) :
    ∀ v : Values, v.Nodup → (WithOptions opts v).Nodup := by
  induction opts with
  | nil => intro v hv; exact hv
  | cons opt opts ih =>
    intro v hv
    exact ih (fun o ho => h o (by simp [ho])) (opt v) (h opt (by simp) v hv)

theorem keepsMap_WithOptions (opts : List QueryOption) (h : ∀ opt ∈ opts, keepsMap opt) :
    keepsMap (WithOptions opts) :=
  Nodup_options opts h

theorem request_merge (r : Resource) (opts : List QueryOption) (req : Request)
    (hne : opts ≠ [])
    (hnd : (WithOptions opts Values.empty).Nodup)
    (hreq : request r opts = .ok req) :
    ∃ res v, r.Render consume (WithOptions opts Values.empty) = .ok (res, v)
      ∧ req.Method = r.method ∧ req.URL.Scheme = r.url.Scheme ∧ req.URL.Host = r.url.Host
      ∧ req.URL.Path = res.url.Path
      ∧ (∀ k x, (k, x) ∈ req.URL.RawQuery ↔ x ∈ v.valuesOf k ∨ (k, x) ∈ r.url.RawQuery)
      ∧ (∀ k x, (v.find k).isSome → (k, x) ∉ r.url.RawQuery) := by
  have hlen : opts.length > 0 := List.length_pos.mpr hne
  unfold request at hreq
  rw [if_pos hlen] at hreq
  simp only at hreq
  have hv0 : List.foldl (fun v opt => opt v) Values.empty opts = WithOptions opts Values.empty :=
    rfl
  rw [hv0] at hreq
  cases hR : r.Render consume (WithOptions opts Values.empty) with
  | error e => rw [hR] at hreq; simp at hreq
  | ok p =>
    obtain ⟨res, v⟩ := p
    rw [hR] at hreq
    simp only at hreq
    cases hM : mergeStatic res.url.Query.entries v with
    | error e => rw [hM] at hreq; simp at hreq
    | ok w =>
      rw [hM] at hreq
      simp only [Except.ok.injEq] at hreq
      subst hreq
      obtain ⟨hm, hs, hh, hq, hnd1, -⟩ := Render_consume r res _ v hR
      obtain ⟨hwnd, hwval⟩ := mergeStatic_spec _ v w hM (hnd1 hnd)
      have hstatic : ∀ k x, (∃ xs, (k, xs) ∈ res.url.Query.entries ∧ x ∈ xs)
          ↔ (k, x) ∈ r.url.RawQuery := by
        intro k x
        rw [← hq, ← valuesOf_Query res.url k x]
        unfold Values.valuesOf Values.find
        constructor
        · rintro ⟨xs, h1, h2⟩
          rw [(mem_iff_lookup _ (Nodup_Query res.url) k xs).mp h1]
          simpa using h2
        · intro hx
          cases hl : res.url.Query.entries.lookup k with
          | none => rw [hl] at hx; simp at hx
          | some xs =>
            rw [hl] at hx
            exact ⟨xs, (mem_iff_lookup _ (Nodup_Query res.url) k xs).mpr hl, by simpa using hx⟩
      refine ⟨res, v, rfl, hm, hs, hh, rfl, ?_, ?_⟩
      · intro k x
        rw [mem_Encode w hwnd, hwval, hstatic]
      · intro k x hsome hmem
        obtain ⟨xs, hxs, -⟩ := (hstatic k x).mpr hmem
        have := mergeStatic_absent _ v w hM (Nodup_Query res.url) k xs hxs
        rw [this] at hsome
        simp at hsome

/-- C10 (amended): for every resource whose path is a template (literal text
and `:name` placeholders, each name a run of lowercase letters ended by a
character that is neither a lowercase letter nor a colon), and every
non-empty list of options for which `request` does not panic, the request
has the method, scheme and host of the resource; its path is the template
with each placeholder replaced by the value the options gave to its name, a
non-empty value; and its query string contains exactly: every option name
that is not the name of a placeholder, with the values the options left for
it (for options built with `WithNumber` and `WithOptions`, the value of the
last one that wrote it), plus the static query entries of the resource.  A
name consumed by a placeholder appears in the query string only with the
static entries of that name, so not at all when the resource has none.  The
options are any functions on the query map that leave a map behind, as every
Go function on a `url.Values` does.  So `DestroyTweet` with `id=N` gives the path `/1.1/statuses/destroy/N.json` and
an empty query, and `DestroyFavorite` with `id=N` gives the query `id=N`. -/
theorem request_query (r : Resource) (opts : List QueryOption) (req : Request)
    (lit : List Char) (segs : List Segment)
    (hne : opts ≠ [])
    (hmap : ∀ opt ∈ opts, keepsMap opt)
    (hpath : r.url.Path.data = templatePath lit segs)
    (hlit : ':' ∉ lit)
    (hsegs : ∀ sg ∈ segs, sg.wellFormed)
    (hreq : request r opts = .ok req) :
    req.Method = r.method ∧ req.URL.Scheme = r.url.Scheme ∧ req.URL.Host = r.url.Host
      ∧ req.URL.Path.data = renderedPath (WithOptions opts Values.empty).Get lit segs
      ∧ (∀ sg ∈ segs, (WithOptions opts Values.empty).Get (String.mk sg.name) ≠ "")
      ∧ (∀ k x, (k, x) ∈ req.URL.RawQuery ↔
          (k ∉ segmentNames segs ∧ x ∈ (WithOptions opts Values.empty).valuesOf k)
          ∨ (k, x) ∈ r.url.RawQuery)
      ∧ (∀ k x, k ∈ segmentNames segs →
          ((k, x) ∈ req.URL.RawQuery ↔ (k, x) ∈ r.url.RawQuery))
      ∧ (∀ ws, Writes (WithOptions opts) ws → ∀ k,
          (WithOptions opts Values.empty).valuesOf k
            = match lastWrite ws k with
              | some id => [FormatInt id]
              | none => [])
      ∧ (∀ id : Int, request DestroyTweet [WithNumber "id" id]
          = .ok ⟨"POST", ⟨"https", "api.twitter.com",
              String.mk ("/1.1/statuses/destroy/".data ++ (FormatInt id).data ++ ".json".data),
              []⟩⟩)
      ∧ (∀ id : Int, request DestroyFavorite [WithNumber "id" id]
          = .ok ⟨"POST", ⟨"https", "api.twitter.com", "/1.1/favorites/destroy.json",
              [("id", FormatInt id)]⟩⟩) := by
  have hnd : (WithOptions opts Values.empty).Nodup := Nodup_options opts hmap _ Nodup_empty
  obtain ⟨res, v, hR, hm, hs, hh, hp, hq, -⟩ := request_merge r opts req hne hnd hreq
  obtain ⟨hpath2, hget, hfind⟩ := Render_template_consume r res _ v lit segs hpath hlit hsegs hR
  have hmain : ∀ k x, (k, x) ∈ req.URL.RawQuery ↔
      (k ∉ segmentNames segs ∧ x ∈ (WithOptions opts Values.empty).valuesOf k)
      ∨ (k, x) ∈ r.url.RawQuery := by
    intro k x
    rw [hq]
    apply or_congr_left
    unfold Values.valuesOf
    rw [hfind]
    by_cases hc : k ∈ segmentNames segs
    · simp [hc]
    · simp [hc]
  refine ⟨hm, hs, hh, by rw [hp]; exact hpath2, hget, hmain, ?_, ?_, request_DestroyTweet,
    request_DestroyFavorite⟩
  · intro k x hk
    rw [hmain]
    simp [hk]
  · intro ws hw k
    unfold Values.valuesOf
    rw [Writes_apply _ ws hw Values.empty, find_writes]
    cases lastWrite ws k <;> simp [Values.find, Values.empty]

/-- C10 (amended), at the delete resource of tweets with `id=42`: the id goes
into the path, and the name `id`, consumed by the placeholder, is not in the
query string. -/
theorem request_query_witness :
    "/1.1/statuses/destroy/42.json".data
        = renderedPath (WithOptions [WithNumber "id" 42] Values.empty).Get
            "/1.1/statuses/destroy/".data [⟨"id".data, '.', "json".data⟩]
      ∧ (("id", "42") ∈ ([] : List (String × String))
          ↔ ("id", "42") ∈ DestroyTweet.url.RawQuery) := by
  obtain ⟨-, -, -, h4, -, -, h7, -⟩ := request_query DestroyTweet [WithNumber "id" 42]
    ⟨"POST", ⟨"https", "api.twitter.com", "/1.1/statuses/destroy/42.json", []⟩⟩
    "/1.1/statuses/destroy/".data [⟨"id".data, '.', "json".data⟩]
    (by simp)
    (by
      intro opt h
      simp only [List.mem_singleton] at h
      subst h
      exact keepsMap_WithNumber "id" 42)
    (by decide) (by decide)
    (by
      intro sg h
      simp only [List.mem_singleton] at h
      subst h
      unfold Segment.wellFormed isLower
      decide)
    (by decide)
  exact ⟨h4, h7 "id" "42" (by decide)⟩

/-! ### The iterator over successful pages -/

theorem isOk_elim {ε α : Type} (x : Except ε α) (h : x.isOk = true) : ∃ a, x = .ok a := by
  cases x with
  | error e => simp [Except.isOk, Except.toBool] at h
  | ok a => exact ⟨a, rfl⟩

theorem fetch_page (lib : Lib) (env : Env) (it : Iterator) (fuel : Nat) (st : State)
    (page : List Tweet)
    (hwaits : ∀ i, env.waits i = true) (hbuilds : it.builds)
    (hpage : decodesTo lib (env.pages st.npages) page) :
    ∃ req, Iterator.fetch lib env it (fuel + 1) st
      = .ret (match page.getLast? with
          | none => .error GoError.EOF
          | some last => .ok last.ID)
        { st with
          nwaits := st.nwaits + 1
          npages := st.npages + 1
          tweets := page
          trace := st.trace ++ [Event.limiterWait true, Event.list (cursorOf st.offset) req,
            Event.page page] } := by
  obtain ⟨hdr, body, hreply, hdecode⟩ := hpage
  obtain ⟨req, hreq⟩ := isOk_elim _ (hbuilds st.offset)
  refine ⟨req, ?_⟩
  simp only [Iterator.fetch, Env.wait, hwaits, Client.Do, hreq, Env.listTransport, hreply,
    Client.handle, StatusOK, errOf, IsRateLimited, OnData, hdecode]
  cases hlast : page.getLast? <;> simp [hdecode, hlast]

theorem drop_cons_get {α : Type} (l : List α) (n : Nat) (d : α) (ds : List α)
    (h : l.drop n = d :: ds) : n < l.length ∧ l.get? n = some d ∧ l.drop (n + 1) = ds := by
  induction l generalizing n with
  | nil => simp at h
  | cons x xs ih =>
    cases n with
    | zero =>
      simp only [List.drop_zero, List.cons.injEq] at h
      simp [h.1, h.2]
    | succ m =>
      simp only [List.drop_succ_cons] at h
      obtain ⟨h1, h2, h3⟩ := ih m h
      exact ⟨by simpa using h1, by simpa using h2, by simpa using h3⟩

theorem next_cons (lib : Lib) (env : Env) (it : Iterator) (fuel : Nat) (st : State)
    (t : Tweet) (rest : List Tweet)
    (hwaits : ∀ i, env.waits i = true) (hbuilds : it.builds)
    (hready : Ready lib env st (t :: rest)) :
    ∃ st2, ForEachTweet lib env it (fuel + 1) st = .ret (t, none) st2
      ∧ Ready lib env st2 rest ∧ st2.ndels = st.ndels
      ∧ ∃ extra, st2.trace = st.trace ++ extra ∧ quiet extra := by
  obtain ⟨herr, ps, hserve, hrest⟩ := hready
  cases hbuf : st.tweets.drop st.pos with
  | cons d ds =>
    rw [hbuf] at hrest
    simp only [List.cons_append, List.cons.injEq] at hrest
    obtain ⟨h1, h2, h3⟩ := drop_cons_get _ _ _ _ hbuf
    refine ⟨{ st with pos := st.pos + 1 }, ?_, ⟨herr, ps, hserve, ?_⟩, rfl, [], by simp,
      by simp [quiet, deleteCalls, destroyedCalls, promptCalls]⟩
    · have hlt : ¬ st.pos ≥ st.tweets.length := by omega
      simp only [ForEachTweet, hlt, if_false, yield, h2, hrest.1]
    · simp only [h3]
      exact hrest.2
  | nil =>
    rw [hbuf] at hrest
    have hge : st.pos ≥ st.tweets.length := by
      have := List.drop_eq_nil_iff.mp hbuf
      omega
    cases ps with
    | nil => simp at hrest
    | cons p ps2 =>
      obtain ⟨hp, hdec, hserve2⟩ := hserve
      cases p with
      | nil => exact absurd rfl hp
      | cons p0 ptail =>
        simp only [List.nil_append, List.flatten_cons, List.cons_append, List.cons.injEq] at hrest
        obtain ⟨req, hfetch⟩ := fetch_page lib env it fuel st (p0 :: ptail) hwaits hbuilds hdec
        have hlast : ∃ last, (p0 :: ptail).getLast? = some last := by
          cases hl : (p0 :: ptail).getLast? with
          | none => simp at hl
          | some last => exact ⟨last, rfl⟩
        obtain ⟨last, hlast⟩ := hlast
        rw [hlast] at hfetch
        refine ⟨{ st with
            nwaits := st.nwaits + 1
            npages := st.npages + 1
            tweets := p0 :: ptail
            pos := 1
            offset := wrapInt64 (last.ID - 1)
            trace := st.trace ++ [Event.limiterWait true, Event.list (cursorOf st.offset) req,
              Event.page (p0 :: ptail)] }, ?_, ⟨herr, ps2, hserve2, ?_⟩, rfl, _, rfl,
          by simp [quiet, deleteCalls, destroyedCalls, promptCalls]⟩
        · simp only [ForEachTweet, hge, if_true, Iterator.Next, herr, Option.isSome_none,
            hfetch, yield]
          simp [hrest.1]
        · simpa using hrest.2

theorem next_nil (lib : Lib) (env : Env) (it : Iterator) (fuel : Nat) (st : State)
    (hwaits : ∀ i, env.waits i = true) (hbuilds : it.builds)
    (hready : Ready lib env st []) :
    ∃ st2, ForEachTweet lib env it (fuel + 1) st = .ret (Tweet.zero, some GoError.EOF) st2
      ∧ st2.ndels = st.ndels
      ∧ ∃ extra, st2.trace = st.trace ++ extra ∧ quiet extra := by
  obtain ⟨herr, ps, hserve, hrest⟩ := hready
  have hbuf : st.tweets.drop st.pos = [] := (List.append_eq_nil.mp hrest).1
  have hge : st.pos ≥ st.tweets.length := by
    have := List.drop_eq_nil_iff.mp hbuf
    omega
  cases ps with
  | cons p ps2 =>
    obtain ⟨hp, -, -⟩ := hserve
    have := (List.append_eq_nil.mp hrest).2
    simp only [List.flatten_cons, List.append_eq_nil] at this
    exact absurd this.1 hp
  | nil =>
    obtain ⟨req, hfetch⟩ := fetch_page lib env it fuel st [] hwaits hbuilds hserve
    simp only [List.getLast?_nil] at hfetch
    refine ⟨{ st with
        nwaits := st.nwaits + 1
        npages := st.npages + 1
        tweets := []
        err := some GoError.EOF
        trace := st.trace ++ [Event.limiterWait true, Event.list (cursorOf st.offset) req,
          Event.page []] }, ?_, rfl, _, rfl,
      by simp [quiet, deleteCalls, destroyedCalls, promptCalls]⟩
    simp only [ForEachTweet, hge, if_true, Iterator.Next, herr, Option.isSome_none, hfetch]
    simp

theorem pull_ready (lib : Lib) (env : Env) (it : Iterator) (fuel : Nat)
    (hwaits : ∀ i, env.waits i = true) (hbuilds : it.builds) (rest : List Tweet) :
    ∀ st, Ready lib env st rest →
      (pull lib env it (fuel + 1) (rest.length + 1) st).value
        = some (rest.map (fun t => (t, none)) ++ [(Tweet.zero, some GoError.EOF)]) := by
  induction rest with
  | nil =>
    intro st hready
    obtain ⟨st2, hnext, -, -⟩ := next_nil lib env it fuel st hwaits hbuilds hready
    simp [pull, hnext, Outcome.value]
  | cons t rest ih =>
    intro st hready
    obtain ⟨st2, hnext, hready2, -, -⟩ := next_cons lib env it fuel st t rest hwaits hbuilds hready
    have h := ih st2 hready2
    show (pull lib env it (fuel + 1) ((rest.length + 1) + 1) st).value = _
    rw [pull]
    simp only [hnext]
    cases hp : pull lib env it (fuel + 1) (rest.length + 1) st2 with
    | ret a st3 =>
      rw [hp] at h
      simp only [Outcome.value, Option.some.injEq] at h
      simp [Outcome.value, h]
    | panic p st3 => rw [hp] at h; simp [Outcome.value] at h
    | timeout st3 => rw [hp] at h; simp [Outcome.value] at h

/-- C7: when the transport answers the requests of the iterator with `n`
non-empty pages and then one empty page, all successful (no wait on the
context is cancelled and the requests build, as the answers presuppose),
the successive calls of the iterator returned by `ForEachTweet` yield the
items of the pages in page order and in-page order, each once, and the call
after the last item returns `io.EOF`. -/
theorem ForEachTweet_pages (lib : Lib) (env : Env) (it : Iterator) (ps : List (List Tweet))
    (fuel : Nat)
    (hfuel : 0 < fuel)
    (hwaits : ∀ i, env.waits i = true)
    (hbuilds : it.builds)
    (hserve : Serves lib env 0 ps) :
    (pull lib env it fuel (ps.flatten.length + 1) State.init).value
      = some (ps.flatten.map (fun t => (t, none)) ++ [(Tweet.zero, some GoError.EOF)]) := by
  obtain ⟨f, rfl⟩ : ∃ f, fuel = f + 1 := ⟨fuel - 1, by omega⟩
  exact pull_ready lib env it f hwaits hbuilds ps.flatten State.init
    ⟨rfl, ps, hserve, by simp [State.init]⟩

theorem builds_plain (r : Resource) (opts : List QueryOption)
    (hpath : ':' ∉ r.url.Path.data) (hquery : r.url.RawQuery = []) :
    Iterator.builds ⟨r, opts⟩ :=
  fun _ => request_plain r _ hpath hquery

theorem serves_twoPages :
    Serves Lib.sample Env.twoPages 0
      [[Tweet.withID 5, Tweet.withID 4], [Tweet.withID 3, Tweet.withID 2]] :=
  ⟨by decide, ⟨[], "ed", rfl, by decide⟩, by decide, ⟨[], "cb", rfl, by decide⟩,
    ⟨[], "", rfl, by decide⟩⟩

/-- C7, at pages of sizes 2, 2 and 0: four items, then `io.EOF`. -/
theorem ForEachTweet_pages_witness :
    (pull Lib.sample Env.twoPages Iterator.sample 1 5 State.init).value
      = some [(Tweet.withID 5, none), (Tweet.withID 4, none), (Tweet.withID 3, none),
          (Tweet.withID 2, none), (Tweet.zero, some GoError.EOF)] :=
  ForEachTweet_pages Lib.sample Env.twoPages Iterator.sample
    [[Tweet.withID 5, Tweet.withID 4], [Tweet.withID 3, Tweet.withID 2]] 1 (by decide)
    (fun _ => rfl) (builds_plain _ _ (by decide) rfl) serves_twoPages

/-! ### The cursor of the iterator -/

theorem codeCursor_snoc (trace : List Event) (e : Event) :
    codeCursor (trace ++ [e]) = cursorStep (codeCursor trace) e := by
  simp [codeCursor, List.foldl_append]

theorem lastFetched_snoc (trace : List Event) (e : Event) :
    lastFetched (trace ++ [e]) = fetchedStep (lastFetched trace) e := by
  simp [lastFetched, List.foldl_append]

theorem snoc_split {α : Type} (trace pre post : List α) (e x : α)
    (h : trace ++ [e] = pre ++ x :: post) :
    (post = [] ∧ x = e ∧ pre = trace) ∨ ∃ post2, post = post2 ++ [e] ∧ trace = pre ++ x :: post2 := by
  rcases List.eq_nil_or_concat post with hnil | ⟨post2, y, hy⟩
  · left
    subst hnil
    have h2 : trace ++ [e] = pre ++ [x] := h
    obtain ⟨h3, h4⟩ := List.append_inj' h2 rfl
    simp only [List.cons.injEq, and_true] at h4
    exact ⟨rfl, h4.symm, h3.symm⟩
  · right
    subst hy
    have h2 : trace ++ [e] = (pre ++ x :: post2) ++ [y] := by simpa using h
    obtain ⟨h3, h4⟩ := List.append_inj' h2 rfl
    simp only [List.cons.injEq, and_true] at h4
    exact ⟨post2, by rw [h4]; simp, h3⟩

theorem Consistent_snoc (it : Iterator) (trace : List Event) (e : Event)
    (h : Consistent it trace)
    (he : ∀ maxID req, e = Event.list maxID req →
      maxID = cursorOf (codeCursor trace)
      ∧ request it.Resource
          [WithOptions it.Options, WithOptions (cursorOptions (codeCursor trace))] = .ok req) :
    Consistent it (trace ++ [e]) := by
  intro pre maxID req post hsplit
  rcases snoc_split _ _ _ _ _ hsplit with ⟨-, hx, hpre⟩ | ⟨post2, -, htr⟩
  · rw [hpre]
    exact he maxID req hx.symm
  · exact h pre maxID req post2 htr

theorem Consistent_nil (it : Iterator) : Consistent it [] := by
  intro pre maxID req post h
  simp at h

theorem fetch_cursor_inv (lib : Lib) (env : Env) (it : Iterator) (fuel : Nat) :
    ∀ st, Consistent it st.trace → codeCursor st.trace = st.offset →
      Consistent it (Iterator.fetch lib env it fuel st).state.trace
      ∧ (Iterator.fetch lib env it fuel st).state.offset = st.offset
      ∧ match Iterator.fetch lib env it fuel st with
        | .ret (.ok id) st2 => codeCursor st2.trace = wrapInt64 (id - 1)
        | o => codeCursor o.state.trace = st.offset := by
  induction fuel with
  | zero =>
    intro st hc ho
    simp [Iterator.fetch, Outcome.state, hc, ho]
  | succ fuel ih =>
    intro st hc ho
    have hc1 : Consistent it (st.trace ++ [Event.limiterWait (env.waits st.nwaits)]) :=
      Consistent_snoc it _ _ hc (by intro m r h; cases h)
    have ho1 : codeCursor (st.trace ++ [Event.limiterWait (env.waits st.nwaits)]) = st.offset := by
      rw [codeCursor_snoc, ho]; rfl
    rw [Iterator.fetch]
    simp only [Env.wait]
    by_cases hw : env.waits st.nwaits = false
    · rw [if_pos hw]
      exact ⟨hc1, rfl, ho1⟩
    · rw [if_neg hw]
      simp only [Client.Do]
      cases hreq : request it.Resource
          [WithOptions it.Options, WithOptions (cursorOptions st.offset)] with
      | error p => exact ⟨hc1, rfl, ho1⟩
      | ok req =>
        simp only [Env.listTransport]
        have hc2 : Consistent it (st.trace ++ [Event.limiterWait (env.waits st.nwaits)]
            ++ [Event.list (cursorOf st.offset) req]) :=
          Consistent_snoc it _ _ hc1 (by
            intro m r h
            simp only [Event.list.injEq] at h
            rw [ho1, ← h.1, ← h.2]
            exact ⟨rfl, hreq⟩)
        have ho2 : codeCursor (st.trace ++ [Event.limiterWait (env.waits st.nwaits)]
            ++ [Event.list (cursorOf st.offset) req]) = st.offset := by
          rw [codeCursor_snoc, ho1]; rfl
        by_cases hlim : (IsRateLimited (errOf (Client.handle lib (env.pages st.npages)))).2 = true
        · rw [if_pos hlim]
          simp only [Relax, Env.wait]
          have hc3 : Consistent it (st.trace ++ [Event.limiterWait (env.waits st.nwaits)]
              ++ [Event.list (cursorOf st.offset) req]
              ++ [Event.relax (IsRateLimited (errOf (Client.handle lib (env.pages st.npages)))).1
                (env.waits (st.nwaits + 1))]) :=
            Consistent_snoc it _ _ hc2 (by intro m r h; cases h)
          have ho3 : codeCursor (st.trace ++ [Event.limiterWait (env.waits st.nwaits)]
              ++ [Event.list (cursorOf st.offset) req]
              ++ [Event.relax (IsRateLimited (errOf (Client.handle lib (env.pages st.npages)))).1
                (env.waits (st.nwaits + 1))]) = st.offset := by
            rw [codeCursor_snoc, ho2]; rfl
          by_cases hw2 : env.waits (st.nwaits + 1) = true
          · simp only [hw2, if_true]
            simp only [hw2] at hc3 ho3
            exact ih _ hc3 ho3
          · have hw2f : env.waits (st.nwaits + 1) = false := by simpa using hw2
            simp only [hw2f, Bool.false_eq_true, if_false]
            simp only [hw2f] at hc3 ho3
            exact ⟨hc3, rfl, ho3⟩
        · rw [if_neg hlim]
          cases hr : Client.handle lib (env.pages st.npages) with
          | error err => exact ⟨hc2, rfl, ho2⟩
          | ok bts =>
            simp only [OnData]
            cases hd : lib.unmarshalTweets bts with
            | none => exact ⟨hc2, rfl, ho2⟩
            | some tweets =>
              have hc3 : Consistent it (st.trace ++ [Event.limiterWait (env.waits st.nwaits)]
                  ++ [Event.list (cursorOf st.offset) req] ++ [Event.page tweets]) :=
                Consistent_snoc it _ _ hc2 (by intro m r h; cases h)
              cases hl : tweets.getLast? with
              | none =>
                simp only [hl]
                refine ⟨hc3, rfl, ?_⟩
                simp only [Outcome.state]
                rw [codeCursor_snoc, ho2]
                simp [cursorStep, hl]
              | some last =>
                simp only [hl]
                refine ⟨hc3, rfl, ?_⟩
                rw [codeCursor_snoc]
                simp [cursorStep, hl]

theorem Next_cursor_inv (lib : Lib) (env : Env) (it : Iterator) (fuel : Nat) (st : State)
    (hc : Consistent it st.trace) (ho : codeCursor st.trace = st.offset) :
    Consistent it (Iterator.Next lib env it fuel st).state.trace
      ∧ codeCursor (Iterator.Next lib env it fuel st).state.trace
        = (Iterator.Next lib env it fuel st).state.offset := by
  unfold Iterator.Next
  split
  · exact ⟨hc, ho⟩
  · obtain ⟨h1, h2, h3⟩ := fetch_cursor_inv lib env it fuel st hc ho
    cases hf : Iterator.fetch lib env it fuel st with
    | timeout st2 =>
      rw [hf] at h1 h2 h3
      exact ⟨h1, by simpa [Outcome.state] using h3.trans h2.symm⟩
    | panic p st2 =>
      rw [hf] at h1 h2 h3
      exact ⟨h1, by simpa [Outcome.state] using h3.trans h2.symm⟩
    | ret r st2 =>
      rw [hf] at h1 h2 h3
      cases r with
      | error err => exact ⟨h1, by simpa [Outcome.state] using h3.trans h2.symm⟩
      | ok id => exact ⟨h1, by simpa [Outcome.state] using h3⟩

theorem yield_state (st : State) :
    (yield st).state.trace = st.trace ∧ (yield st).state.offset = st.offset := by
  unfold yield
  split <;> simp [Outcome.state]

theorem ForEachTweet_cursor_inv (lib : Lib) (env : Env) (it : Iterator) (fuel : Nat) (st : State)
    (hc : Consistent it st.trace) (ho : codeCursor st.trace = st.offset) :
    Consistent it (ForEachTweet lib env it fuel st).state.trace
      ∧ codeCursor (ForEachTweet lib env it fuel st).state.trace
        = (ForEachTweet lib env it fuel st).state.offset := by
  unfold ForEachTweet
  split
  · obtain ⟨h1, h2⟩ := Next_cursor_inv lib env it fuel st hc ho
    cases hn : Iterator.Next lib env it fuel st with
    | timeout st2 => rw [hn] at h1 h2; exact ⟨h1, h2⟩
    | panic p st2 => rw [hn] at h1 h2; exact ⟨h1, h2⟩
    | ret b st2 =>
      rw [hn] at h1 h2
      cases b with
      | false => exact ⟨h1, h2⟩
      | true =>
        simp only
        obtain ⟨y1, y2⟩ := yield_state { st2 with pos := 0 }
        rw [y1, y2]
        exact ⟨h1, h2⟩
  · obtain ⟨y1, y2⟩ := yield_state st
    rw [y1, y2]
    exact ⟨hc, ho⟩

theorem pull_cursor_inv (lib : Lib) (env : Env) (it : Iterator) (fuel n : Nat) :
    ∀ st, Consistent it st.trace → codeCursor st.trace = st.offset →
      Consistent it (pull lib env it fuel n st).state.trace
      ∧ codeCursor (pull lib env it fuel n st).state.trace
        = (pull lib env it fuel n st).state.offset := by
  induction n with
  | zero => intro st hc ho; exact ⟨hc, ho⟩
  | succ n ih =>
    intro st hc ho
    obtain ⟨h1, h2⟩ := ForEachTweet_cursor_inv lib env it fuel st hc ho
    rw [pull]
    cases hn : ForEachTweet lib env it fuel st with
    | timeout st2 => rw [hn] at h1 h2; exact ⟨h1, h2⟩
    | panic p st2 => rw [hn] at h1 h2; exact ⟨h1, h2⟩
    | ret a st2 =>
      rw [hn] at h1 h2
      obtain ⟨h3, h4⟩ := ih st2 h1 h2
      simp only
      cases hp : pull lib env it fuel n st2 with
      | timeout st3 => rw [hp] at h3 h4; exact ⟨h3, h4⟩
      | panic p st3 => rw [hp] at h3 h4; exact ⟨h3, h4⟩
      | ret as st3 => rw [hp] at h3 h4; exact ⟨h3, h4⟩

theorem wrapInt64_id (x : Int) (h0 : -(2 ^ 63) ≤ x) (h1 : x < 2 ^ 63) : wrapInt64 x = x := by
  unfold wrapInt64
  omega

theorem codeCursor_lastFetched (pre : List Event) :
    codeCursor pre = match lastFetched pre with
      | none => 0
      | some t => wrapInt64 (t.ID - 1) := by
  induction pre using List.reverseRecOn with
  | nil => simp [codeCursor, lastFetched]
  | append_singleton pre e ih =>
    rw [codeCursor_snoc, lastFetched_snoc]
    cases e with
    | page ts =>
      cases hl : ts.getLast? with
      | none => simpa [cursorStep, fetchedStep, hl] using ih
      | some last => simp [cursorStep, fetchedStep, hl]
    | limiterWait d => simpa [cursorStep, fetchedStep] using ih
    | list m r => simpa [cursorStep, fetchedStep] using ih
    | relax l d => simpa [cursorStep, fetchedStep] using ih
    | prompt t a => simpa [cursorStep, fetchedStep] using ih
    | delete i r => simpa [cursorStep, fetchedStep] using ih
    | destroyed t => simpa [cursorStep, fetchedStep] using ih

theorem request_max_id (r : Resource) (opts : List QueryOption) (req : Request)
    (hne : opts ≠ [])
    (hnd : (WithOptions opts Values.empty).Nodup)
    (hreq : request r opts = .ok req) :
    (∀ x, ("max_id", x) ∈ req.URL.RawQuery ↔
      x ∈ (WithOptions opts Values.empty).valuesOf "max_id" ∨ ("max_id", x) ∈ r.url.RawQuery)
    ∧ (((WithOptions opts Values.empty).find "max_id").isSome →
      ∀ x, ("max_id", x) ∉ r.url.RawQuery) := by
  obtain ⟨res, v, hR, -, -, -, -, hq, habs⟩ := request_merge r opts req hne hnd hreq
  obtain ⟨-, -, -, -, -, names, hlow, hfind⟩ := Render_consume r res _ v hR
  have hnot : names.contains "max_id" = false := by
    cases hc : names.contains "max_id" with
    | false => rfl
    | true =>
      have hmem : "max_id" ∈ names := by simpa using hc
      have := hlow "max_id" hmem '_' (by decide)
      exact absurd this (by unfold isLower; decide)
  have hsame : v.find "max_id" = (WithOptions opts Values.empty).find "max_id" := by
    rw [hfind, hnot]
    simp
  constructor
  · intro x
    rw [hq]
    unfold Values.valuesOf
    rw [hsame]
  · intro hsome x
    exact habs "max_id" x (by rw [hsame]; exact hsome)

/-- C8 (as stated, refuted): the first page holds the tweet of id 1 alone;
the request issued after it carries no `max_id`, where id minus 1 is 0.  And
for an iterator whose own options write `max_id`, the request for the first
page carries that `max_id`. -/
theorem fetch_drops_cursor_after_id_1 :
    (pull Lib.sample Env.lowID Iterator.sample 1 2 State.init).state.trace
      = [Event.limiterWait true,
          Event.list none ⟨"GET", ⟨"https", "api.twitter.com",
            "/1.1/statuses/user_timeline.json", [("count", "200")]⟩⟩,
          Event.page [Tweet.withID 1],
          Event.limiterWait true,
          Event.list none ⟨"GET", ⟨"https", "api.twitter.com",
            "/1.1/statuses/user_timeline.json", [("count", "200")]⟩⟩,
          Event.page []]
    ∧ expectedCursor [Event.limiterWait true,
          Event.list none ⟨"GET", ⟨"https", "api.twitter.com",
            "/1.1/statuses/user_timeline.json", [("count", "200")]⟩⟩,
          Event.page [Tweet.withID 1],
          Event.limiterWait true] = some 0
    ∧ (pull Lib.sample Env.lowID Iterator.pinned 1 1 State.init).state.trace
      = [Event.limiterWait true,
          Event.list none ⟨"GET", ⟨"https", "api.twitter.com",
            "/1.1/statuses/user_timeline.json", [("max_id", "99")]⟩⟩,
          Event.page [Tweet.withID 1]] := by
  decide

/-- C8 (amended): in one pagination run, that is any number of calls of the
iterator from its initial state, with any answers of the transport: every
request issued before the first non-empty page is decoded is the request
built from the options of the iterator alone, so it carries no `max_id`
beyond what those options or the static query of the resource hold; and
after every non-empty page whose last item has an id greater than 1, every
request issued until the next non-empty page is decoded is the request built
with the option `max_id` equal to that id minus 1 written last, and its query
string carries that `max_id` and no other.  The options of the iterator are
any functions on the query map that leave a map behind. -/
theorem fetch_cursor (lib : Lib) (env : Env) (it : Iterator) (fuel n : Nat)
    (hmap : ∀ opt ∈ it.Options, keepsMap opt) :
    ∀ pre maxID req post,
      (pull lib env it fuel n State.init).state.trace = pre ++ Event.list maxID req :: post →
      (lastFetched pre = none →
        request it.Resource [WithOptions it.Options, WithOptions []] = .ok req
        ∧ ∀ x, ("max_id", x) ∈ req.URL.RawQuery ↔
            x ∈ (WithOptions it.Options Values.empty).valuesOf "max_id"
            ∨ ("max_id", x) ∈ it.Resource.url.RawQuery)
      ∧ (∀ t, lastFetched pre = some t → 1 < t.ID → t.ID < 2 ^ 63 →
        request it.Resource
            [WithOptions it.Options, WithOptions [WithNumber "max_id" (t.ID - 1)]] = .ok req
        ∧ ∀ x, ("max_id", x) ∈ req.URL.RawQuery ↔ x = FormatInt (t.ID - 1)) := by
  intro pre maxID req post hsplit
  obtain ⟨hc, -⟩ := pull_cursor_inv lib env it fuel n State.init (Consistent_nil it) rfl
  obtain ⟨-, hbuilt⟩ := hc pre maxID req post hsplit
  rw [codeCursor_lastFetched] at hbuilt
  have hnd0 : (WithOptions it.Options Values.empty).Nodup :=
    Nodup_options it.Options hmap _ Nodup_empty
  constructor
  · intro hnone
    rw [hnone] at hbuilt
    have hb : request it.Resource [WithOptions it.Options, WithOptions []] = .ok req := hbuilt
    refine ⟨hb, ?_⟩
    have hnd1 : (WithOptions [WithOptions it.Options, WithOptions []] Values.empty).Nodup := hnd0
    exact (request_max_id it.Resource [WithOptions it.Options, WithOptions []] req (by simp)
      hnd1 hb).1
  · intro t hsome h1 h2
    rw [hsome] at hbuilt
    simp only at hbuilt
    rw [wrapInt64_id _ (by omega) (by omega)] at hbuilt
    have hpos : t.ID - 1 > 0 := by omega
    have hb : request it.Resource
        [WithOptions it.Options, WithOptions [WithNumber "max_id" (t.ID - 1)]] = .ok req := by
      rw [← hbuilt]
      simp [cursorOptions, hpos]
    refine ⟨hb, ?_⟩
    have hnd1 : (WithOptions [WithOptions it.Options, WithOptions [WithNumber "max_id" (t.ID - 1)]]
        Values.empty).Nodup := Nodup_Set _ _ _ hnd0
    have hfind : (WithOptions [WithOptions it.Options, WithOptions [WithNumber "max_id" (t.ID - 1)]]
        Values.empty).find "max_id" = some [FormatInt (t.ID - 1)] := by
      show ((WithOptions it.Options Values.empty).Set "max_id" (FormatInt (t.ID - 1))).find "max_id"
        = some [FormatInt (t.ID - 1)]
      rw [find_Set]
      simp
    obtain ⟨hiff, habs⟩ := request_max_id it.Resource
      [WithOptions it.Options, WithOptions [WithNumber "max_id" (t.ID - 1)]] req (by simp) hnd1 hb
    intro x
    rw [hiff]
    unfold Values.valuesOf
    rw [hfind]
    constructor
    · rintro (hx | hx)
      · simpa using hx
      · exact absurd hx (habs (by rw [hfind]; rfl) x)
    · intro hx
      left
      simp [hx]

theorem mem_of_split {α : Type} (l a b : List α) (x : α) (h : l = a ++ x :: b) : x ∈ l := by
  rw [h]; simp

/-- C8 (amended), at two pages with the ids 5, 4 and 3, 2 and the iterator
that `Destroy` builds: the request after the first page, whose last id is 4,
is the one built with `max_id = 3`, and `3` is in its query string. -/
theorem fetch_cursor_witness :
    request UserTimeline
        [WithOptions [WithNumber "count" 200], WithOptions [WithNumber "max_id" (4 - 1)]]
      = .ok ⟨"GET", ⟨"https", "api.twitter.com",
          "/1.1/statuses/user_timeline.json", [("count", "200"), ("max_id", "3")]⟩⟩
    ∧ (("max_id", "3") ∈ [("count", "200"), ("max_id", "3")] ↔ "3" = FormatInt (4 - 1)) := by
  have h := (fetch_cursor Lib.sample Env.twoPages Iterator.sample 1 5
    (by
      intro opt h
      simp only [Iterator.sample, List.mem_singleton] at h
      subst h
      exact keepsMap_WithNumber "count" 200)
    [Event.limiterWait true,
      Event.list none ⟨"GET", ⟨"https", "api.twitter.com",
        "/1.1/statuses/user_timeline.json", [("count", "200")]⟩⟩,
      Event.page [Tweet.withID 5, Tweet.withID 4],
      Event.limiterWait true]
    (some 3)
    ⟨"GET", ⟨"https", "api.twitter.com",
      "/1.1/statuses/user_timeline.json", [("count", "200"), ("max_id", "3")]⟩⟩
    [Event.page [Tweet.withID 3, Tweet.withID 2],
      Event.limiterWait true,
      Event.list (some 1) ⟨"GET", ⟨"https", "api.twitter.com",
        "/1.1/statuses/user_timeline.json", [("count", "200"), ("max_id", "1")]⟩⟩,
      Event.page []]
    (by decide)).2 (Tweet.withID 4) (by decide) (by decide) (by decide)
  exact ⟨h.1, h.2 "3"⟩

/-! ### The destroy loop over successful deletes -/

theorem Ready_congr (lib : Lib) (env : Env) (st st2 : State) (rest : List Tweet)
    (h : Ready lib env st rest) (herr : st2.err = st.err) (hn : st2.npages = st.npages)
    (ht : st2.tweets = st.tweets) (hp : st2.pos = st.pos) : Ready lib env st2 rest := by
  unfold Ready at *
  rw [herr, hn, ht, hp]
  exact h

theorem delete_ok (lib : Lib) (env : Env) (d : Destroyer) (t : Tweet) (st : State)
    (hdels : ∀ i, ∃ hdr body, env.dels i = .ok ⟨200, hdr, .ok body⟩)
    (hreq : (request d.Del [WithNumber "id" t.ID]).isOk = true) :
    ∃ req, Destroyer.delete lib env d t st
      = .ret none { st with
          ndels := st.ndels + 1
          trace := st.trace ++ [Event.delete t.ID req] } := by
  obtain ⟨req, hreq2⟩ := isOk_elim _ hreq
  obtain ⟨hdr, body, hreply⟩ := hdels st.ndels
  refine ⟨req, ?_⟩
  simp [Destroyer.delete, Client.Do, hreq2, Env.deleteTransport, hreply, Client.handle, StatusOK,
    errOf, IsRateLimited]

theorem deleteCalls_append (a b : List Event) :
    deleteCalls (a ++ b) = deleteCalls a ++ deleteCalls b := by
  simp [deleteCalls, List.filterMap_append]

theorem destroyedCalls_append (a b : List Event) :
    destroyedCalls (a ++ b) = destroyedCalls a ++ destroyedCalls b := by
  simp [destroyedCalls, List.filterMap_append]

theorem promptCalls_append (a b : List Event) :
    promptCalls (a ++ b) = promptCalls a ++ promptCalls b := by
  simp [promptCalls, List.filterMap_append]

theorem deleteCalls_cons (e : Event) (es : List Event) :
    deleteCalls (e :: es) = (match e with
      | .delete id _ => [id]
      | _ => []) ++ deleteCalls es := by
  cases e <;> rfl

theorem destroyedCalls_cons (e : Event) (es : List Event) :
    destroyedCalls (e :: es) = (match e with
      | .destroyed t => [t]
      | _ => []) ++ destroyedCalls es := by
  cases e <;> rfl

theorem promptCalls_cons (e : Event) (es : List Event) :
    promptCalls (e :: es) = (match e with
      | .prompt t _ => [t]
      | _ => []) ++ promptCalls es := by
  cases e <;> rfl

theorem deleteCalls_nil : deleteCalls [] = [] := rfl

theorem destroyedCalls_nil : destroyedCalls [] = [] := rfl

theorem promptCalls_nil : promptCalls [] = [] := rfl

theorem loop_selects (lib : Lib) (env : Env) (d : Destroyer)
    (hwaits : ∀ i, env.waits i = true)
    (hbuilds : Iterator.builds ⟨d.Get, [WithNumber "count" 200]⟩)
    (hdels : ∀ i, ∃ hdr body, env.dels i = .ok ⟨200, hdr, .ok body⟩)
    (rest : List Tweet) :
    ∀ (st : State) (fuel : Nat), Ready lib env st rest → rest.length + 2 ≤ fuel →
      (∀ t ∈ rest, (request d.Del [WithNumber "id" t.ID]).isOk = true) →
      (∀ t ∈ rest, (d.Criteria.Match lib t).isOk = true) →
      ∃ st2, Destroyer.loop lib env d fuel st = .ret none st2
        ∧ deleteCalls st2.trace
          = deleteCalls st.trace ++ (rest.filter (selected lib d)).map (fun t => t.ID)
        ∧ promptCalls st2.trace
          = promptCalls st.trace ++ (if d.Prompt.isSome then rest.filter (matched lib d) else [])
        ∧ destroyedCalls st2.trace
          = destroyedCalls st.trace ++ (if d.Destroyed then rest.filter (selected lib d) else []) := by
  induction rest with
  | nil =>
    intro st fuel hready hfuel _ _
    obtain ⟨f, rfl⟩ : ∃ f, fuel = (f + 1) + 1 := ⟨fuel - 2, by simp at hfuel; omega⟩
    obtain ⟨st2, hnext, -, extra, htrace, hq1, hq2, hq3⟩ :=
      next_nil lib env ⟨d.Get, [WithNumber "count" 200]⟩ f st hwaits hbuilds hready
    refine ⟨st2, ?_, ?_, ?_, ?_⟩
    · rw [Destroyer.loop]
      simp [hnext]
    · rw [htrace, deleteCalls_append, hq1]; simp
    · rw [htrace, promptCalls_append, hq3]; simp
    · rw [htrace, destroyedCalls_append, hq2]; simp
  | cons t rest ih =>
    intro st fuel hready hfuel hreq hmatch
    obtain ⟨f, rfl⟩ : ∃ f, fuel = (f + 1) + 1 := ⟨fuel - 2, by simp at hfuel; omega⟩
    have hf : rest.length + 2 ≤ f + 1 := by simp at hfuel; omega
    obtain ⟨st2, hnext, hready2, -, extra, htrace, hq1, hq2, hq3⟩ :=
      next_cons lib env ⟨d.Get, [WithNumber "count" 200]⟩ f st t rest hwaits hbuilds hready
    have hreq2 : ∀ x ∈ rest, (request d.Del [WithNumber "id" x.ID]).isOk = true :=
      fun x hx => hreq x (by simp [hx])
    have hmatch2 : ∀ x ∈ rest, (d.Criteria.Match lib x).isOk = true :=
      fun x hx => hmatch x (by simp [hx])
    obtain ⟨b, hb⟩ := isOk_elim _ (hmatch t (by simp))
    have hmt : matched lib d t = b := by simp [matched, hb]
    rw [Destroyer.loop]
    simp only [hnext, hb]
    cases b with
    | false =>
      obtain ⟨st3, hloop, h1, h2, h3⟩ := ih st2 (f + 1) hready2 hf hreq2 hmatch2
      refine ⟨st3, hloop, ?_, ?_, ?_⟩
      · rw [h1, htrace, deleteCalls_append, hq1]; simp [selected, hmt]
      · rw [h2, htrace, promptCalls_append, hq3]; simp [hmt]
      · rw [h3, htrace, destroyedCalls_append, hq2]; simp [selected, hmt]
    | true =>
      simp only
      cases hp : d.Prompt with
      | some prompt =>
        have hready3 : Ready lib env
            { st2 with trace := st2.trace ++ [Event.prompt t (prompt t)] } rest :=
          Ready_congr lib env st2 _ rest hready2 rfl rfl rfl rfl
        cases hans : prompt t with
        | false =>
          obtain ⟨st3, hloop, h1, h2, h3⟩ := ih _ (f + 1) hready3 hf hreq2 hmatch2
          refine ⟨st3, ?_, ?_, ?_, ?_⟩
          · simpa [ask, hp, hans] using hloop
          · rw [h1]
            simp [htrace, deleteCalls_append, hq1, selected, hmt, confirmed, hp, hans, deleteCalls_cons, deleteCalls_nil]
          · rw [h2]
            simp [htrace, promptCalls_append, hq3, hmt, hp, promptCalls_cons, promptCalls_nil]
          · rw [h3]
            simp [htrace, destroyedCalls_append, hq2, selected, hmt, confirmed, hp, hans,
              destroyedCalls_cons, destroyedCalls_nil]
        | true =>
          obtain ⟨req, hdel⟩ := delete_ok lib env d t
            { st2 with trace := st2.trace ++ [Event.prompt t (prompt t)] } hdels (hreq t (by simp))
          have hready4 : Ready lib env (notify d t
              { st2 with
                ndels := st2.ndels + 1
                trace := st2.trace ++ [Event.prompt t (prompt t)] ++ [Event.delete t.ID req] })
              rest := by
            unfold notify
            split <;> exact Ready_congr lib env st2 _ rest hready2 rfl rfl rfl rfl
          obtain ⟨st3, hloop, h1, h2, h3⟩ := ih _ (f + 1) hready4 hf hreq2 hmatch2
          refine ⟨st3, ?_, ?_, ?_, ?_⟩
          · simp only [ask, hp, hans, Bool.not_true, Bool.false_eq_true, if_false]
            simp only [hans] at hdel
            rw [hdel]
            simpa [hans] using hloop
          · rw [h1]
            unfold notify
            split <;>
              simp [htrace, deleteCalls_append, hq1, selected, hmt, confirmed, hp, hans,
                deleteCalls_cons, deleteCalls_nil]
          · rw [h2]
            unfold notify
            split <;> simp [htrace, promptCalls_append, hq3, hmt, hp, promptCalls_cons, promptCalls_nil]
          · rw [h3]
            unfold notify
            split <;> rename_i hd <;>
              simp [htrace, destroyedCalls_append, hq2, selected, hmt, confirmed, hp, hans,
                destroyedCalls_cons, destroyedCalls_nil, hd]
      | none =>
        obtain ⟨req, hdel⟩ := delete_ok lib env d t st2 hdels (hreq t (by simp))
        have hready4 : Ready lib env (notify d t
            { st2 with
              ndels := st2.ndels + 1
              trace := st2.trace ++ [Event.delete t.ID req] }) rest := by
          unfold notify
          split <;> exact Ready_congr lib env st2 _ rest hready2 rfl rfl rfl rfl
        obtain ⟨st3, hloop, h1, h2, h3⟩ := ih _ (f + 1) hready4 hf hreq2 hmatch2
        refine ⟨st3, ?_, ?_, ?_, ?_⟩
        · simp only [ask, hp, Bool.false_eq_true, if_false]
          rw [hdel]
          simpa using hloop
        · rw [h1]
          unfold notify
          split <;>
            simp [htrace, deleteCalls_append, hq1, selected, hmt, confirmed, hp, deleteCalls_cons, deleteCalls_nil]
        · rw [h2]
          unfold notify
          split <;> simp [htrace, promptCalls_append, hq3, hmt, hp, promptCalls_cons, promptCalls_nil]
        · rw [h3]
          unfold notify
          split <;> rename_i hd <;>
            simp [htrace, destroyedCalls_append, hq2, selected, hmt, confirmed, hp,
              destroyedCalls_cons, destroyedCalls_nil, hd]

/-- C3 (as stated, refuted): with the criteria "replies only" and a fetched
reply whose `CreatedAt` does not parse, `Destroy` panics in `MustParseTime`;
it neither skips nor deletes the item and does not return nil. -/
theorem Destroy_panics_on_timestamp :
    ∃ st, Destroyer.Destroy Lib.sample Env.malformed Destroyer.replies 4
      = .panic (Panic.parseTime "") st :=
  ⟨(Destroyer.Destroy Lib.sample Env.malformed Destroyer.replies 4).state, by decide⟩

/-- C3 (amended): for every sequence of fetched items (non-empty pages, then
the empty page), every criteria that does not panic on any of them, and every
confirmation predicate, when every delete call succeeds, `Destroy` issues
delete calls for exactly the items that the criteria matches and the
predicate confirms (all matching items with no predicate), one call per item
with the id of the item, in fetch order; the predicate is called exactly on
the items the criteria matches; the `Destroyed` callback receives exactly the
deleted items in the same order; and `Destroy` returns nil. -/
theorem Destroy_selects (lib : Lib) (env : Env) (d : Destroyer) (ps : List (List Tweet))
    (fuel : Nat)
    (hfuel : ps.flatten.length + 2 ≤ fuel)
    (hwaits : ∀ i, env.waits i = true)
    (hbuilds : Iterator.builds ⟨d.Get, [WithNumber "count" 200]⟩)
    (hserve : Serves lib env 0 ps)
    (hdels : ∀ i, ∃ hdr body, env.dels i = .ok ⟨200, hdr, .ok body⟩)
    (hreq : ∀ t ∈ ps.flatten, (request d.Del [WithNumber "id" t.ID]).isOk = true)
    (hmatch : ∀ t ∈ ps.flatten, (d.Criteria.Match lib t).isOk = true) :
    ∃ st, d.Destroy lib env fuel = .ret none st
      ∧ deleteCalls st.trace = (ps.flatten.filter (selected lib d)).map (fun t => t.ID)
      ∧ promptCalls st.trace
        = (if d.Prompt.isSome then ps.flatten.filter (matched lib d) else [])
      ∧ destroyedCalls st.trace
        = (if d.Destroyed then ps.flatten.filter (selected lib d) else []) := by
  obtain ⟨st, h0, h1, h2, h3⟩ := loop_selects lib env d hwaits hbuilds hdels ps.flatten
    State.init fuel ⟨rfl, ps, hserve, by simp [State.init]⟩ hfuel hreq hmatch
  exact ⟨st, h0, by simpa [State.init, deleteCalls] using h1,
    by simpa [State.init, promptCalls] using h2,
    by simpa [State.init, destroyedCalls] using h3⟩

/-- C3 (amended), at two pages with the ids 5, 4 and 3, 2: the criteria
rejects 3, the predicate rejects 4 and 2, and 5 alone is deleted. -/
theorem Destroy_selects_witness :
    ∃ st, Destroyer.Destroy Lib.sample Env.twoPages Destroyer.replies 6 = .ret none st
      ∧ deleteCalls st.trace = [5]
      ∧ promptCalls st.trace = [Tweet.withID 5, Tweet.withID 4, Tweet.withID 2]
      ∧ destroyedCalls st.trace = [Tweet.withID 5] := by
  obtain ⟨st, h0, h1, h2, h3⟩ := Destroy_selects Lib.sample Env.twoPages Destroyer.replies
    [[Tweet.withID 5, Tweet.withID 4], [Tweet.withID 3, Tweet.withID 2]] 6 (by decide)
    (fun _ => rfl) (builds_plain _ _ (by decide) rfl) serves_twoPages
    (fun _ => ⟨[], "", rfl⟩) (by decide) (by decide)
  exact ⟨st, h0, h1, h2, h3⟩

end Rmtweet
